import Mathlib

/-
Verification of the BackupBanana backup engine.

The development shallowly embeds the engine of src/BackupBanana.py and,
where it differs, src/BackupBanana_MAC.py. Filesystem effects are made
explicit: the destination tree is a value threaded through the pass, the
os.walk enumeration of the source tree is an input list, and per-file
copy failures come from an oracle. Modification times are integers in
seconds; the progress expression int((copied / total) * 100) is a
binary64 float computation and is modelled with exact IEEE-754 round to
nearest, ties to even semantics, see pyProgress below.
-/

namespace BackupBanana

/-- Filesystem paths are lists of path components. The walk root has the
empty list as its relative path: os.path.relpath of the root against
itself yields the dot entry, modelled as the empty component list. -/
abbrev FsPath := List String

/-- Metadata of one file as the engine observes it: an abstract content
token, the modification time in whole seconds as os.path.getmtime
reports it, and the size in bytes as os.path.getsize reports it. -/
structure FileMeta where
  content : Nat
  mtime : Int
  size : Nat
deriving DecidableEq

/-- State of the destination tree: the directories present and a finite
map from file paths to metadata, both as lists. -/
structure DestFS where
  dirs : List FsPath
  files : List (FsPath × FileMeta)
deriving DecidableEq

def lookupFile (fs : DestFS) (p : FsPath) : Option FileMeta :=
  (fs.files.find? (fun q => q.1 == p)).map (fun q => q.2)

/-- Models shutil.copy2 writing one destination file: the destination
entry at that path now carries the source content and mtime. -/
def writeFile (fs : DestFS) (p : FsPath) (m : FileMeta) : DestFS :=
  { fs with files := fs.files.filter (fun q => !(q.1 == p)) ++ [(p, m)] }

/-- Models os.path.exists: true when the path is present as a directory
or as a file. -/
def pathExists (fs : DestFS) (p : FsPath) : Bool :=
  fs.dirs.contains p || (lookupFile fs p).isSome

/-- Models os.makedirs for a path whose ancestors already exist, which
holds along the walk because os.walk yields parents before children. -/
def makedirs (fs : DestFS) (p : FsPath) : DestFS :=
  { fs with dirs := fs.dirs ++ [p] }

/-- Models os.path.join of a root directory string with a relative
component path. -/
def joinPath (root : String) (p : FsPath) : String :=
  p.foldl (fun acc c => acc ++ "/" ++ c) root

/-- One file of the source tree as yielded by os.walk, together with the
metadata os.path.getmtime and os.path.getsize report for it. -/
structure SrcFile where
  name : String
  meta : FileMeta
deriving DecidableEq

/-- One directory of the os.walk traversal of the source tree: its path
relative to the source root, and the files it directly contains. -/
structure DirEntry where
  rel : FsPath
  files : List SrcFile
deriving DecidableEq

/-- Inputs of one pass. The walk field is the os.walk enumeration of the
source tree, empty when the source root does not exist or is unreadable,
because os.walk swallows those errors. The copyFail oracle tells which
per-file copies raise, giving the exception text. -/
structure Config where
  source : String
  destination : String
  date : String
  walk : List DirEntry
  copyFail : FsPath → Option String

/-- Transcribes the total file count computed up front in run:
sum of len(files) over os.walk of the source. -/
def total_files (walk : List DirEntry) : Nat :=
  (walk.map (fun e => e.files.length)).sum

/-- The result dictionary emitted by a finished pass. -/
structure BackupResult where
  date : String
  copied_files : Nat
  modified_files : Nat
  copied_folders : Nat
  modified_folders : Nat
  source : String
  destination : String
  errors : List String
deriving DecidableEq

/-- Terminal outcome of a pass: the backup_finished signal with a result
dictionary, or the error_occurred signal with a list of messages. -/
inductive Outcome where
  | finished (r : BackupResult)
  | fatal (msgs : List String)
deriving DecidableEq

/-- Everything one pass produces: its terminal outcome, the sequence of
progress_update emissions, and the final destination tree. -/
structure RunOutput where
  outcome : Outcome
  progress_events : List Nat
  finalFS : DestFS
deriving DecidableEq

/-- Mutable state of one executing pass, after the Python locals of
BackupThread.run: the destination tree, the four classification lists,
the error log, the processed-file counter (named copied_files in the
source), and the emitted progress values. -/
structure RunSt where
  fs : DestFS
  copied_files_list : List String
  modified_files_list : List String
  copied_folders_list : List String
  modified_folders_list : List String
  error_log : List String
  copied_files : Nat
  progress_events : List Nat
deriving DecidableEq

/-- The f-string the except branch appends to the error log. -/
def copyErrorText (source_file dest_file reason : String) : String :=
  "Error copying " ++ source_file ++ " to " ++ dest_file ++ ": " ++ reason

/-
Model of the binary64 arithmetic behind the progress expression
int((copied_files / total_files) * 100). Python divides the two ints as
IEEE-754 doubles (correctly rounded), multiplies the result by the exact
double 100 (correctly rounded again), and truncates toward zero. The
model computes those two correctly rounded steps exactly over the
rationals: a positive value is rounded to 53 significand bits with round
to nearest, ties to even. Subnormal underflow and overflow to infinity
are not modelled; every value a backup pass produces lies well inside
the normal range. The emitted value can differ from the exact floor of
copied * 100 / total: at 29 files of 50 the floor is 58 while the
program emits 57.
-/

def rne (a b : Nat) : Nat :=
  let q := a / b
  let r := a % b
  if 2 * r < b then q
  else if b < 2 * r then q + 1
  else if q % 2 = 0 then q
  else q + 1

def natLog2Aux : Nat → Nat → Nat
  | 0, _ => 0
  | fuel + 1, n => if n ≤ 1 then 0 else natLog2Aux fuel (n / 2) + 1

def natLog2 (n : Nat) : Nat := natLog2Aux n n

def upExpAux : Nat → Nat → Nat → Nat
  | 0, _, _ => 0
  | fuel + 1, p, q => if q ≤ p then 0 else upExpAux fuel (2 * p) q + 1

def upExp (p q : Nat) : Nat := upExpAux q p q

def ratExp (p q : Nat) : Int :=
  if q ≤ p then Int.ofNat (natLog2 (p / q))
  else - Int.ofNat (upExp p q)

def scaledPair (p q : Nat) : Nat × Nat :=
  match ratExp p q with
  | Int.ofNat n => if n ≤ 52 then (p * 2 ^ (52 - n), q) else (p, q * 2 ^ (n - 52))
  | Int.negSucc j => (p * 2 ^ (52 + (j + 1)), q)

def rawSig (p q : Nat) : Nat :=
  rne (scaledPair p q).1 (scaledPair p q).2

def floatOf (p q : Nat) : Nat × Int :=
  if rawSig p q = 2 ^ 53 then (2 ^ 52, ratExp p q + 1) else (rawSig p q, ratExp p q)

def floatMul100 (f : Nat × Int) : Nat × Int :=
  match f.2 with
  | Int.ofNat n =>
      if 52 ≤ n then floatOf (f.1 * 100 * 2 ^ (n - 52)) 1
      else floatOf (f.1 * 100) (2 ^ (52 - n))
  | Int.negSucc j => floatOf (f.1 * 100) (2 ^ (52 + (j + 1)))

def floatTrunc (f : Nat × Int) : Nat :=
  match f.2 with
  | Int.ofNat n => if 52 ≤ n then f.1 * 2 ^ (n - 52) else f.1 / 2 ^ (52 - n)
  | Int.negSucc _ => 0

def pyProgress (copied total : Nat) : Nat :=
  floatTrunc (floatMul100 (floatOf copied total))

theorem rne_ge (a b : Nat) : a / b ≤ rne a b := by
  simp only [rne]
  split_ifs <;> omega

theorem rne_le (a b : Nat) : rne a b ≤ a / b + 1 := by
  simp only [rne]
  split_ifs <;> omega

theorem rne_mono_left (a a' b : Nat) (h : a ≤ a') : rne a b ≤ rne a' b := by
  have hq : a / b ≤ a' / b := Nat.div_le_div_right h
  rcases eq_or_lt_of_le hq with heq | hlt
  · have hr : a % b ≤ a' % b := by
      have h1 := Nat.div_add_mod a b
      have h2 := Nat.div_add_mod a' b
      rw [heq] at h1
      omega
    simp only [rne, heq]
    split_ifs <;> omega
  · calc rne a b ≤ a / b + 1 := rne_le a b
      _ ≤ a' / b := hlt
      _ ≤ rne a' b := rne_ge a' b

theorem rne_scale (l a b : Nat) (hl : 0 < l) : rne (l * a) (l * b) = rne a b := by
  have h2 : 2 * (l * (a % b)) = l * (2 * (a % b)) := by ring
  simp only [rne, Nat.mul_div_mul_left a b hl, Nat.mul_mod_mul_left, h2,
    Nat.mul_lt_mul_left hl]

theorem rne_cross_mono (A B A' B' : Nat) (hB : 0 < B) (hB' : 0 < B')
    (h : A * B' ≤ A' * B) : rne A B ≤ rne A' B' := by
  rw [← rne_scale B' A B hB', ← rne_scale B A' B' hB]
  have hnum : B' * A ≤ B * A' := by
    calc B' * A = A * B' := Nat.mul_comm _ _
      _ ≤ A' * B := h
      _ = B * A' := Nat.mul_comm _ _
  have hden : B' * B = B * B' := Nat.mul_comm _ _
  rw [hden]
  exact rne_mono_left _ _ _ hnum

theorem natLog2Aux_le : ∀ (fuel n : Nat), 1 ≤ n → n ≤ fuel → 2 ^ natLog2Aux fuel n ≤ n := by
  intro fuel
  induction fuel with
  | zero => intro n h1 h2; omega
  | succ f ih =>
      intro n h1 h2
      show 2 ^ (if n ≤ 1 then 0 else natLog2Aux f (n / 2) + 1) ≤ n
      by_cases h : n ≤ 1
      · rw [if_pos h]
        simpa using h1
      · rw [if_neg h]
        have hrec := ih (n / 2) (by omega) (by omega)
        rw [pow_succ]
        omega

theorem natLog2Aux_lt : ∀ (fuel n : Nat), n ≤ fuel → n < 2 ^ (natLog2Aux fuel n + 1) := by
  intro fuel
  induction fuel with
  | zero =>
      intro n h2
      show n < 2 ^ (0 + 1)
      omega
  | succ f ih =>
      intro n h2
      show n < 2 ^ ((if n ≤ 1 then 0 else natLog2Aux f (n / 2) + 1) + 1)
      by_cases h : n ≤ 1
      · rw [if_pos h]
        omega
      · rw [if_neg h]
        have hrec := ih (n / 2) (by omega)
        rw [pow_succ]
        omega

theorem natLog2_le (n : Nat) (h : 1 ≤ n) : 2 ^ natLog2 n ≤ n :=
  natLog2Aux_le n n h (le_refl n)

theorem natLog2_lt (n : Nat) : n < 2 ^ (natLog2 n + 1) :=
  natLog2Aux_lt n n (le_refl n)

theorem natLog2_mono (m n : Nat) (h : m ≤ n) : natLog2 m ≤ natLog2 n := by
  rcases Nat.eq_zero_or_pos m with h0 | h0
  · subst h0
    show natLog2Aux 0 0 ≤ _
    show (0:Nat) ≤ _
    omega
  · have h1 := natLog2_le m h0
    have h2 := natLog2_lt n
    have h3 : 2 ^ natLog2 m < 2 ^ (natLog2 n + 1) := by omega
    have h4 := (Nat.pow_lt_pow_iff_right (by norm_num : 1 < 2)).mp h3
    omega

theorem upExpAux_spec : ∀ (fuel p q : Nat), 0 < p → q - p ≤ fuel →
    q ≤ p * 2 ^ upExpAux fuel p q := by
  intro fuel
  induction fuel with
  | zero =>
      intro p q hp h
      show q ≤ p * 2 ^ 0
      simpa using (by omega : q ≤ p)
  | succ f ih =>
      intro p q hp h
      show q ≤ p * 2 ^ (if q ≤ p then 0 else upExpAux f (2 * p) q + 1)
      by_cases hqp : q ≤ p
      · rw [if_pos hqp]
        simpa using hqp
      · rw [if_neg hqp]
        have hrec := ih (2 * p) q (by omega) (by omega)
        calc q ≤ 2 * p * 2 ^ upExpAux f (2 * p) q := hrec
          _ = p * 2 ^ (upExpAux f (2 * p) q + 1) := by ring

theorem upExp_le (p q : Nat) (hp : 0 < p) : q ≤ p * 2 ^ upExp p q :=
  upExpAux_spec q p q hp (by omega)

theorem upExpAux_min : ∀ (fuel p q j : Nat), q ≤ p * 2 ^ j → upExpAux fuel p q ≤ j := by
  intro fuel
  induction fuel with
  | zero =>
      intro p q j _
      show (0:Nat) ≤ j
      omega
  | succ f ih =>
      intro p q j h
      show (if q ≤ p then 0 else upExpAux f (2 * p) q + 1) ≤ j
      by_cases hqp : q ≤ p
      · rw [if_pos hqp]
        omega
      · rw [if_neg hqp]
        cases j with
        | zero =>
            simp at h
            omega
        | succ j2 =>
            have h2 : q ≤ 2 * p * 2 ^ j2 := by
              calc q ≤ p * 2 ^ (j2 + 1) := h
                _ = 2 * p * 2 ^ j2 := by ring
            have := ih (2 * p) q j2 h2
            omega

theorem upExp_min (p q j : Nat) (hj : q ≤ p * 2 ^ j) : upExp p q ≤ j :=
  upExpAux_min q p q j hj

theorem upExp_pos (p q : Nat) (hp : 0 < p) (hpq : p < q) : 0 < upExp p q := by
  rcases Nat.eq_zero_or_pos (upExp p q) with h0 | h0
  · have h3 := upExp_le p q hp
    rw [h0] at h3
    simp at h3
    omega
  · exact h0

theorem upExp_upper (p q : Nat) (hp : 0 < p) (hpq : p < q) :
    p * 2 ^ (upExp p q - 1) < q := by
  by_contra hc
  push_neg at hc
  have h1 := upExp_min p q (upExp p q - 1) hc
  have h2 := upExp_pos p q hp hpq
  omega

theorem ratExp_ge_low (p q : Nat) (hq : 0 < q) (h : q ≤ p) :
    2 ^ natLog2 (p / q) * q ≤ p := by
  have h1 : 2 ^ natLog2 (p / q) ≤ p / q :=
    natLog2_le (p / q) ((Nat.one_le_div_iff hq).mpr h)
  calc 2 ^ natLog2 (p / q) * q ≤ (p / q) * q := Nat.mul_le_mul_right q h1
    _ ≤ p := Nat.div_mul_le_self p q

theorem ratExp_lt_high (p q : Nat) (hq : 0 < q) :
    p < 2 ^ (natLog2 (p / q) + 1) * q := by
  have h1 : p / q < 2 ^ (natLog2 (p / q) + 1) := natLog2_lt (p / q)
  have h3 : p % q < q := Nat.mod_lt p hq
  calc p = q * (p / q) + p % q := (Nat.div_add_mod p q).symm
    _ < q * (p / q) + q := by omega
    _ = q * (p / q + 1) := by ring
    _ ≤ q * 2 ^ (natLog2 (p / q) + 1) := Nat.mul_le_mul_left q (by omega)
    _ = 2 ^ (natLog2 (p / q) + 1) * q := Nat.mul_comm _ _

theorem ratExp_nonneg_form (p q : Nat) (h : q ≤ p) :
    ratExp p q = Int.ofNat (natLog2 (p / q)) := by
  unfold ratExp
  rw [if_pos h]

theorem ratExp_neg_form (p q : Nat) (hp : 0 < p) (hpq : p < q) :
    ratExp p q = Int.negSucc (upExp p q - 1) := by
  unfold ratExp
  rw [if_neg (by omega)]
  have := upExp_pos p q hp hpq
  rw [Int.negSucc_eq]
  simp only [Int.ofNat_eq_coe]
  omega

theorem scaledPair_of_nonneg (p q : Nat) (h : q ≤ p) :
    scaledPair p q = if natLog2 (p / q) ≤ 52
      then (p * 2 ^ (52 - natLog2 (p / q)), q)
      else (p, q * 2 ^ (natLog2 (p / q) - 52)) := by
  unfold scaledPair
  rw [ratExp_nonneg_form p q h]

theorem scaledPair_of_neg (p q : Nat) (hp : 0 < p) (hpq : p < q) :
    scaledPair p q = (p * 2 ^ (52 + upExp p q), q) := by
  unfold scaledPair
  rw [ratExp_neg_form p q hp hpq]
  show (p * 2 ^ (52 + (upExp p q - 1 + 1)), q) = _
  have hu := upExp_pos p q hp hpq
  rw [show upExp p q - 1 + 1 = upExp p q from by omega]

theorem scaledPair_pos (p q : Nat) (hp : 0 < p) (hq : 0 < q) :
    0 < (scaledPair p q).1 ∧ 0 < (scaledPair p q).2 := by
  by_cases hqp : q ≤ p
  · rw [scaledPair_of_nonneg p q hqp]
    split_ifs <;> constructor <;> positivity
  · push_neg at hqp
    rw [scaledPair_of_neg p q hp hqp]
    constructor <;> positivity

theorem scaledPair_low (p q : Nat) (hp : 0 < p) (hq : 0 < q) :
    2 ^ 52 * (scaledPair p q).2 ≤ (scaledPair p q).1 := by
  by_cases hqp : q ≤ p
  · rw [scaledPair_of_nonneg p q hqp]
    have hlow := ratExp_ge_low p q hq hqp
    by_cases h52 : natLog2 (p / q) ≤ 52
    · rw [if_pos h52]
      calc 2 ^ 52 * q = 2 ^ (52 - natLog2 (p / q)) * (2 ^ natLog2 (p / q) * q) := by
            rw [← Nat.mul_assoc, ← Nat.pow_add]
            congr 2
            omega
        _ ≤ 2 ^ (52 - natLog2 (p / q)) * p := Nat.mul_le_mul_left _ hlow
        _ = p * 2 ^ (52 - natLog2 (p / q)) := Nat.mul_comm _ _
    · rw [if_neg h52]
      have hpow : (2:ℕ) ^ 52 * 2 ^ (natLog2 (p / q) - 52) = 2 ^ natLog2 (p / q) := by
        rw [← Nat.pow_add]
        congr 1
        omega
      calc 2 ^ 52 * (q * 2 ^ (natLog2 (p / q) - 52)) =
            (2 ^ 52 * 2 ^ (natLog2 (p / q) - 52)) * q := by ring
        _ = 2 ^ natLog2 (p / q) * q := by rw [hpow]
        _ ≤ p := hlow
  · push_neg at hqp
    rw [scaledPair_of_neg p q hp hqp]
    have hlow := upExp_le p q hp
    calc 2 ^ 52 * q ≤ 2 ^ 52 * (p * 2 ^ upExp p q) := Nat.mul_le_mul_left _ hlow
      _ = p * 2 ^ (52 + upExp p q) := by rw [Nat.pow_add]; ring

theorem scaledPair_high (p q : Nat) (hp : 0 < p) (hq : 0 < q) :
    (scaledPair p q).1 < 2 ^ 53 * (scaledPair p q).2 := by
  by_cases hqp : q ≤ p
  · rw [scaledPair_of_nonneg p q hqp]
    have hhigh := ratExp_lt_high p q hq
    by_cases h52 : natLog2 (p / q) ≤ 52
    · rw [if_pos h52]
      have hpow : (2:ℕ) ^ (natLog2 (p / q) + 1) * 2 ^ (52 - natLog2 (p / q)) =
          2 ^ 53 := by
        rw [← Nat.pow_add]
        congr 1
        omega
      calc p * 2 ^ (52 - natLog2 (p / q)) <
            (2 ^ (natLog2 (p / q) + 1) * q) * 2 ^ (52 - natLog2 (p / q)) := by
            have hpp : 0 < (2:ℕ) ^ (52 - natLog2 (p / q)) := by positivity
            exact (Nat.mul_lt_mul_right hpp).mpr hhigh
        _ = 2 ^ 53 * q := by rw [show (2 ^ (natLog2 (p / q) + 1) * q) *
              2 ^ (52 - natLog2 (p / q)) =
              (2 ^ (natLog2 (p / q) + 1) * 2 ^ (52 - natLog2 (p / q))) * q from by ring,
            hpow]
    · rw [if_neg h52]
      have hpow : (2:ℕ) ^ 53 * 2 ^ (natLog2 (p / q) - 52) = 2 ^ (natLog2 (p / q) + 1) := by
        rw [← Nat.pow_add]
        congr 1
        omega
      calc p < 2 ^ (natLog2 (p / q) + 1) * q := hhigh
        _ = 2 ^ 53 * (q * 2 ^ (natLog2 (p / q) - 52)) := by
            rw [show (2:ℕ) ^ 53 * (q * 2 ^ (natLog2 (p / q) - 52)) =
              (2 ^ 53 * 2 ^ (natLog2 (p / q) - 52)) * q from by ring, hpow]
  · push_neg at hqp
    rw [scaledPair_of_neg p q hp hqp]
    have hu := upExp_pos p q hp hqp
    have hhigh := upExp_upper p q hp hqp
    have hpow : (2:ℕ) ^ (52 + upExp p q) = 2 ^ (upExp p q - 1) * 2 ^ 53 := by
      rw [← Nat.pow_add]
      congr 1
      omega
    calc p * 2 ^ (52 + upExp p q) = (p * 2 ^ (upExp p q - 1)) * 2 ^ 53 := by
          rw [hpow]; ring
      _ < q * 2 ^ 53 := by
          have hpp : 0 < (2:ℕ) ^ 53 := by positivity
          exact (Nat.mul_lt_mul_right hpp).mpr hhigh
      _ = 2 ^ 53 * q := Nat.mul_comm _ _

theorem rawSig_bounds (p q : Nat) (hp : 0 < p) (hq : 0 < q) :
    2 ^ 52 ≤ rawSig p q ∧ rawSig p q ≤ 2 ^ 53 := by
  have hA := scaledPair_low p q hp hq
  have hB := scaledPair_high p q hp hq
  have hpos := (scaledPair_pos p q hp hq).2
  have hlo : (2 ^ 52 : Nat) ≤ (scaledPair p q).1 / (scaledPair p q).2 := by
    rw [Nat.le_div_iff_mul_le hpos]
    exact hA
  have hhi : (scaledPair p q).1 / (scaledPair p q).2 < 2 ^ 53 := by
    rw [Nat.div_lt_iff_lt_mul hpos]
    exact hB
  have h1 := rne_ge (scaledPair p q).1 (scaledPair p q).2
  have h2 := rne_le (scaledPair p q).1 (scaledPair p q).2
  unfold rawSig
  omega

theorem ratExp_mono (p q p2 q2 : Nat) (hp : 0 < p) (hq : 0 < q) (_hp2 : 0 < p2)
    (hq2 : 0 < q2) (h : p * q2 ≤ p2 * q) : ratExp p q ≤ ratExp p2 q2 := by
  unfold ratExp
  split_ifs with h1 h2 h2
  · -- both at least one
    have hlog : natLog2 (p / q) ≤ natLog2 (p2 / q2) := by
      apply natLog2_mono
      rw [Nat.le_div_iff_mul_le hq2]
      have step1 : q * (p / q * q2) ≤ q * p2 := by
        calc q * (p / q * q2) = q * (p / q) * q2 := by ring
          _ ≤ p * q2 := Nat.mul_le_mul_right q2 (Nat.mul_div_le p q)
          _ ≤ p2 * q := h
          _ = q * p2 := Nat.mul_comm _ _
      exact Nat.le_of_mul_le_mul_left step1 hq
    simp only [Int.ofNat_eq_coe]
    omega
  · -- q ≤ p but p2 < q2: contradicts h
    exfalso
    push_neg at h2
    have c1 : q * q2 ≤ p * q2 := Nat.mul_le_mul_right q2 h1
    have c2 : p2 * q < q2 * q := (Nat.mul_lt_mul_right hq).mpr h2
    have : q * q2 < q * q2 := by
      calc q * q2 ≤ p * q2 := c1
        _ ≤ p2 * q := h
        _ < q2 * q := c2
        _ = q * q2 := Nat.mul_comm _ _
    exact lt_irrefl _ this
  · -- p < q, q2 ≤ p2: negative ≤ nonnegative
    simp only [Int.ofNat_eq_coe]
    omega
  · -- both below one
    push_neg at h1 h2
    have hj := upExp_le p q hp
    have key : q2 ≤ p2 * 2 ^ upExp p q := by
      have c2 : p2 * q ≤ p2 * (p * 2 ^ upExp p q) := Nat.mul_le_mul_left p2 hj
      have c3 : p * q2 ≤ p * (p2 * 2 ^ upExp p q) := by
        calc p * q2 ≤ p2 * q := h
          _ ≤ p2 * (p * 2 ^ upExp p q) := c2
          _ = p * (p2 * 2 ^ upExp p q) := by ring
      exact Nat.le_of_mul_le_mul_left c3 hp
    have hmin := upExp_min p2 q2 (upExp p q) key
    simp only [Int.ofNat_eq_coe]
    omega

def fval (f : Nat × Int) : ℚ := (f.1 : ℚ) * (2:ℚ) ^ (f.2 - 52)

theorem floatOf_fst_bounds (p q : Nat) (hp : 0 < p) (hq : 0 < q) :
    2 ^ 52 ≤ (floatOf p q).1 ∧ (floatOf p q).1 < 2 ^ 53 := by
  unfold floatOf
  have hb := rawSig_bounds p q hp hq
  split_ifs with hc
  · constructor
    · norm_num
    · norm_num
  · exact ⟨hb.1, lt_of_le_of_ne hb.2 hc⟩

theorem fval_floatOf (p q : Nat) :
    fval (floatOf p q) = (rawSig p q : ℚ) * (2:ℚ) ^ (ratExp p q - 52) := by
  unfold floatOf
  split_ifs with hc
  · simp only [fval]
    rw [hc]
    have he : ratExp p q + 1 - 52 = (ratExp p q - 52) + 1 := by ring
    rw [he, zpow_add₀ (by norm_num : (2:ℚ) ≠ 0), zpow_one]
    push_cast
    ring
  · rfl

theorem two_zpow_pos (k : Int) : (0:ℚ) < (2:ℚ) ^ k := zpow_pos (by norm_num) k

theorem rawSig_mono_of_eq_exp (p q p2 q2 : Nat) (hp : 0 < p) (hq : 0 < q) (hp2 : 0 < p2)
    (hq2 : 0 < q2) (h : p * q2 ≤ p2 * q) (hke : ratExp p q = ratExp p2 q2) :
    rawSig p q ≤ rawSig p2 q2 := by
  have hsp := scaledPair_pos p q hp hq
  have hsp2 := scaledPair_pos p2 q2 hp2 hq2
  have hcross : (scaledPair p q).1 * (scaledPair p2 q2).2 ≤
      (scaledPair p2 q2).1 * (scaledPair p q).2 := by
    by_cases h1 : q ≤ p <;> by_cases h2 : q2 ≤ p2
    · rw [ratExp_nonneg_form p q h1, ratExp_nonneg_form p2 q2 h2] at hke
      have hn : natLog2 (p / q) = natLog2 (p2 / q2) := by simpa using hke
      rw [scaledPair_of_nonneg p q h1, scaledPair_of_nonneg p2 q2 h2, ← hn]
      by_cases h52 : natLog2 (p / q) ≤ 52
      · rw [if_pos h52, if_pos h52]
        show p * 2 ^ (52 - natLog2 (p / q)) * q2 ≤ p2 * 2 ^ (52 - natLog2 (p / q)) * q
        calc p * 2 ^ (52 - natLog2 (p / q)) * q2
            = (p * q2) * 2 ^ (52 - natLog2 (p / q)) := by ring
          _ ≤ (p2 * q) * 2 ^ (52 - natLog2 (p / q)) := Nat.mul_le_mul_right _ h
          _ = p2 * 2 ^ (52 - natLog2 (p / q)) * q := by ring
      · rw [if_neg h52, if_neg h52]
        show p * (q2 * 2 ^ (natLog2 (p / q) - 52)) ≤ p2 * (q * 2 ^ (natLog2 (p / q) - 52))
        calc p * (q2 * 2 ^ (natLog2 (p / q) - 52))
            = (p * q2) * 2 ^ (natLog2 (p / q) - 52) := by ring
          _ ≤ (p2 * q) * 2 ^ (natLog2 (p / q) - 52) := Nat.mul_le_mul_right _ h
          _ = p2 * (q * 2 ^ (natLog2 (p / q) - 52)) := by ring
    · push_neg at h2
      rw [ratExp_nonneg_form p q h1, ratExp_neg_form p2 q2 hp2 h2] at hke
      exact absurd hke (by simp)
    · push_neg at h1
      rw [ratExp_neg_form p q hp h1, ratExp_nonneg_form p2 q2 h2] at hke
      exact absurd hke (by simp)
    · push_neg at h1 h2
      rw [ratExp_neg_form p q hp h1, ratExp_neg_form p2 q2 hp2 h2] at hke
      have hu1 := upExp_pos p q hp h1
      have hu2 := upExp_pos p2 q2 hp2 h2
      have hinj := Int.negSucc.inj hke
      have hu : upExp p q = upExp p2 q2 := by omega
      rw [scaledPair_of_neg p q hp h1, scaledPair_of_neg p2 q2 hp2 h2, ← hu]
      show p * 2 ^ (52 + upExp p q) * q2 ≤ p2 * 2 ^ (52 + upExp p q) * q
      calc p * 2 ^ (52 + upExp p q) * q2 = (p * q2) * 2 ^ (52 + upExp p q) := by ring
        _ ≤ (p2 * q) * 2 ^ (52 + upExp p q) := Nat.mul_le_mul_right _ h
        _ = p2 * 2 ^ (52 + upExp p q) * q := by ring
  unfold rawSig
  exact rne_cross_mono _ _ _ _ hsp.2 hsp2.2 hcross

theorem floatOf_val_mono (p q p2 q2 : Nat) (hp : 0 < p) (hq : 0 < q) (hp2 : 0 < p2)
    (hq2 : 0 < q2) (h : p * q2 ≤ p2 * q) :
    fval (floatOf p q) ≤ fval (floatOf p2 q2) := by
  rw [fval_floatOf, fval_floatOf]
  have hk := ratExp_mono p q p2 q2 hp hq hp2 hq2 h
  rcases eq_or_lt_of_le hk with hke | hklt
  · rw [← hke]
    have hm := rawSig_mono_of_eq_exp p q p2 q2 hp hq hp2 hq2 h hke
    have hmq : (rawSig p q : ℚ) ≤ (rawSig p2 q2 : ℚ) := by exact_mod_cast hm
    exact mul_le_mul_of_nonneg_right hmq (le_of_lt (two_zpow_pos _))
  · have hble := rawSig_bounds p q hp hq
    have hble2 := rawSig_bounds p2 q2 hp2 hq2
    have hcast : (rawSig p q : ℚ) ≤ (2:ℚ) ^ (53 : ℕ) := by
      have hc : ((rawSig p q : ℕ) : ℚ) ≤ ((2 ^ 53 : ℕ) : ℚ) := by exact_mod_cast hble.2
      push_cast at hc
      exact hc
    have hcast2 : (2:ℚ) ^ (52 : ℕ) ≤ (rawSig p2 q2 : ℚ) := by
      have hc : ((2 ^ 52 : ℕ) : ℚ) ≤ ((rawSig p2 q2 : ℕ) : ℚ) := by exact_mod_cast hble2.1
      push_cast at hc
      exact hc
    have b1 : (rawSig p q : ℚ) * (2:ℚ) ^ (ratExp p q - 52) ≤ (2:ℚ) ^ (ratExp p q + 1) := by
      calc (rawSig p q : ℚ) * (2:ℚ) ^ (ratExp p q - 52)
          ≤ (2:ℚ) ^ (53:ℕ) * (2:ℚ) ^ (ratExp p q - 52) :=
            mul_le_mul_of_nonneg_right hcast (le_of_lt (two_zpow_pos _))
        _ = (2:ℚ) ^ (ratExp p q + 1) := by
            rw [← zpow_natCast (2:ℚ) 53, ← zpow_add₀ (by norm_num : (2:ℚ) ≠ 0)]
            congr 1
            push_cast
            ring
    have b3 : (2:ℚ) ^ (ratExp p q + 1) ≤ (2:ℚ) ^ ratExp p2 q2 := by
      rw [zpow_le_zpow_iff_right₀ (by norm_num : (1:ℚ) < 2)]
      omega
    have b2 : (2:ℚ) ^ ratExp p2 q2 ≤ (rawSig p2 q2 : ℚ) * (2:ℚ) ^ (ratExp p2 q2 - 52) := by
      have heq : (2:ℚ) ^ ratExp p2 q2 = (2:ℚ) ^ (52:ℕ) * (2:ℚ) ^ (ratExp p2 q2 - 52) := by
        rw [← zpow_natCast (2:ℚ) 52, ← zpow_add₀ (by norm_num : (2:ℚ) ≠ 0)]
        congr 1
        push_cast
        ring
      rw [heq]
      exact mul_le_mul_of_nonneg_right hcast2 (le_of_lt (two_zpow_pos _))
    linarith

def mul100Pair (f : Nat × Int) : Nat × Nat :=
  match f.2 with
  | Int.ofNat n => if 52 ≤ n then (f.1 * 100 * 2 ^ (n - 52), 1) else (f.1 * 100, 2 ^ (52 - n))
  | Int.negSucc j => (f.1 * 100, 2 ^ (52 + (j + 1)))

theorem mul100Pair_of_ge (m : Nat) (n : Nat) (hn : 52 ≤ n) :
    mul100Pair (m, Int.ofNat n) = (m * 100 * 2 ^ (n - 52), 1) := by
  show (if 52 ≤ n then _ else _) = _
  rw [if_pos hn]

theorem mul100Pair_of_lt (m : Nat) (n : Nat) (hn : ¬ 52 ≤ n) :
    mul100Pair (m, Int.ofNat n) = (m * 100, 2 ^ (52 - n)) := by
  show (if 52 ≤ n then _ else _) = _
  rw [if_neg hn]

theorem mul100Pair_neg (m j : Nat) :
    mul100Pair (m, Int.negSucc j) = (m * 100, 2 ^ (52 + (j + 1))) := rfl

theorem floatMul100_eq (f : Nat × Int) :
    floatMul100 f = floatOf (mul100Pair f).1 (mul100Pair f).2 := by
  rcases f with ⟨m, k⟩
  cases k with
  | ofNat n =>
      show (if 52 ≤ n then _ else _) = _
      by_cases hn : 52 ≤ n
      · rw [if_pos hn, mul100Pair_of_ge m n hn]
      · rw [if_neg hn, mul100Pair_of_lt m n hn]
  | negSucc j =>
      rw [mul100Pair_neg]
      rfl

theorem mul100Pair_pos (f : Nat × Int) (h1 : 0 < f.1) :
    0 < (mul100Pair f).1 ∧ 0 < (mul100Pair f).2 := by
  rcases f with ⟨m, k⟩
  simp only [] at h1
  cases k with
  | ofNat n =>
      by_cases hn : 52 ≤ n
      · rw [mul100Pair_of_ge m n hn]
        constructor <;> positivity
      · rw [mul100Pair_of_lt m n hn]
        constructor <;> positivity
  | negSucc j =>
      rw [mul100Pair_neg]
      constructor <;> positivity

theorem mul100Pair_val (f : Nat × Int) :
    ((mul100Pair f).1 : ℚ) / ((mul100Pair f).2 : ℚ) = 100 * fval f := by
  rcases f with ⟨m, k⟩
  cases k with
  | ofNat n =>
      by_cases hn : 52 ≤ n
      · rw [mul100Pair_of_ge m n hn]
        simp only [fval]
        rw [show ((Int.ofNat n : Int) - 52) = ((n - 52 : ℕ) : ℤ) from by
          simp only [Int.ofNat_eq_coe]; omega, zpow_natCast]
        push_cast
        rw [div_one]
        ring
      · rw [mul100Pair_of_lt m n hn]
        simp only [fval]
        rw [show ((Int.ofNat n : Int) - 52) = -((52 - n : ℕ) : ℤ) from by
          simp only [Int.ofNat_eq_coe]; omega, zpow_neg, zpow_natCast]
        push_cast
        rw [div_eq_mul_inv]
        ring
  | negSucc j =>
      rw [mul100Pair_neg]
      simp only [fval]
      rw [show ((Int.negSucc j : Int) - 52) = -((52 + (j + 1) : ℕ) : ℤ) from by
        rw [Int.negSucc_eq]; push_cast; ring, zpow_neg, zpow_natCast]
      push_cast
      rw [div_eq_mul_inv]
      ring

theorem floatMul100_val_mono (f f2 : Nat × Int) (h1 : 0 < f.1) (h12 : 0 < f2.1)
    (h : fval f ≤ fval f2) : fval (floatMul100 f) ≤ fval (floatMul100 f2) := by
  rw [floatMul100_eq, floatMul100_eq]
  have hpos := mul100Pair_pos f h1
  have hpos2 := mul100Pair_pos f2 h12
  apply floatOf_val_mono _ _ _ _ hpos.1 hpos.2 hpos2.1 hpos2.2
  have hq : ((mul100Pair f).1 : ℚ) / ((mul100Pair f).2 : ℚ) ≤
      ((mul100Pair f2).1 : ℚ) / ((mul100Pair f2).2 : ℚ) := by
    rw [mul100Pair_val, mul100Pair_val]
    linarith
  rw [div_le_div_iff₀ (by exact_mod_cast hpos.2) (by exact_mod_cast hpos2.2)] at hq
  exact_mod_cast hq

theorem floatTrunc_eq_floor (f : Nat × Int) (hf : f.1 < 2 ^ 53) :
    floatTrunc f = Nat.floor (fval f) := by
  rcases f with ⟨m, k⟩
  simp only [] at hf
  cases k with
  | ofNat n =>
      by_cases hn : 52 ≤ n
      · show (if 52 ≤ n then m * 2 ^ (n - 52) else m / 2 ^ (52 - n)) = _
        rw [if_pos hn]
        simp only [fval]
        rw [show ((Int.ofNat n : Int) - 52) = ((n - 52 : ℕ) : ℤ) from by
          simp only [Int.ofNat_eq_coe]; omega, zpow_natCast]
        rw [show (m : ℚ) * (2:ℚ) ^ (n - 52 : ℕ) = ((m * 2 ^ (n - 52) : ℕ) : ℚ) from by
          push_cast; ring]
        rw [Nat.floor_natCast]
      · show (if 52 ≤ n then m * 2 ^ (n - 52) else m / 2 ^ (52 - n)) = _
        rw [if_neg hn]
        simp only [fval]
        rw [show ((Int.ofNat n : Int) - 52) = -((52 - n : ℕ) : ℤ) from by
          simp only [Int.ofNat_eq_coe]; omega, zpow_neg, zpow_natCast]
        rw [show (2:ℚ) ^ (52 - n : ℕ) = ((2 ^ (52 - n) : ℕ) : ℚ) from by push_cast; ring]
        rw [← div_eq_mul_inv, Nat.floor_div_nat, Nat.floor_natCast]
  | negSucc j =>
      show 0 = _
      symm
      rw [Nat.floor_eq_zero]
      simp only [fval]
      rw [show ((Int.negSucc j : Int) - 52) = -((52 + (j + 1) : ℕ) : ℤ) from by
        rw [Int.negSucc_eq]; push_cast; ring, zpow_neg, zpow_natCast]
      rw [show (2:ℚ) ^ (52 + (j + 1) : ℕ) = ((2 ^ (52 + (j + 1)) : ℕ) : ℚ) from by
        push_cast; ring]
      rw [← div_eq_mul_inv, div_lt_one (by positivity)]
      have hle : (2:ℕ) ^ 53 ≤ 2 ^ (52 + (j + 1)) :=
        Nat.pow_le_pow_right (by norm_num) (by omega)
      exact_mod_cast lt_of_lt_of_le hf hle

theorem pyProgress_mono (c c2 t : Nat) (hc : 0 < c) (ht : 0 < t) (h : c ≤ c2) :
    pyProgress c t ≤ pyProgress c2 t := by
  have h0 : fval (floatOf c t) ≤ fval (floatOf c2 t) :=
    floatOf_val_mono c t c2 t hc ht (by omega) ht (Nat.mul_le_mul_right t h)
  have hf1 : 0 < (floatOf c t).1 :=
    lt_of_lt_of_le (by positivity) (floatOf_fst_bounds c t hc ht).1
  have hf2 : 0 < (floatOf c2 t).1 :=
    lt_of_lt_of_le (by positivity) (floatOf_fst_bounds c2 t (by omega) ht).1
  have h2 : fval (floatMul100 (floatOf c t)) ≤ fval (floatMul100 (floatOf c2 t)) :=
    floatMul100_val_mono _ _ hf1 hf2 h0
  have hb1 : (floatMul100 (floatOf c t)).1 < 2 ^ 53 := by
    rw [floatMul100_eq]
    exact (floatOf_fst_bounds _ _ (mul100Pair_pos _ hf1).1 (mul100Pair_pos _ hf1).2).2
  have hb2 : (floatMul100 (floatOf c2 t)).1 < 2 ^ 53 := by
    rw [floatMul100_eq]
    exact (floatOf_fst_bounds _ _ (mul100Pair_pos _ hf2).1 (mul100Pair_pos _ hf2).2).2
  unfold pyProgress
  rw [floatTrunc_eq_floor _ hb1, floatTrunc_eq_floor _ hb2]
  exact Nat.floor_mono h2

theorem floatOf_self (t : Nat) (ht : 0 < t) : floatOf t t = (2 ^ 52, 0) := by
  have hk : ratExp t t = Int.ofNat 0 := by
    unfold ratExp
    rw [if_pos (le_refl t), Nat.div_self ht]
    rfl
  have hsp : scaledPair t t = (t * 2 ^ 52, t) := by
    unfold scaledPair
    rw [hk]
    show (if 0 ≤ 52 then (t * 2 ^ (52 - 0), t) else (t, t * 2 ^ (0 - 52))) = _
    rw [if_pos (by omega)]
  have hm : rawSig t t = 2 ^ 52 := by
    unfold rawSig
    rw [hsp]
    show rne (t * 2 ^ 52) t = 2 ^ 52
    simp only [rne, Nat.mul_div_cancel_left _ ht, Nat.mul_mod_right]
    rw [if_pos (by omega)]
  unfold floatOf
  rw [hm, hk]
  rw [if_neg (by norm_num)]
  rfl

theorem pyProgress_self (t : Nat) (ht : 0 < t) : pyProgress t t = 100 := by
  unfold pyProgress
  rw [floatOf_self t ht]
  decide

namespace BackupThread

/-- One iteration of the inner file loop of run: classify the file as
copied when absent at the destination, else as modified when the source
mtime is strictly greater; attempt the copy, logging the exception text
on failure; then increment the counter and emit the progress value. -/
def fileStep (cfg : Config) (total : Nat) (rel : FsPath) (st : RunSt) (f : SrcFile) : RunSt :=
  let p := rel ++ [f.name]
  let source_file := joinPath cfg.source p
  let dest_file := joinPath cfg.destination p
  let st1 :=
    match lookupFile st.fs p with
    | none => { st with copied_files_list := st.copied_files_list ++ [dest_file] }
    | some m =>
        if m.mtime < f.meta.mtime then
          { st with modified_files_list := st.modified_files_list ++ [dest_file] }
        else st
  let st2 :=
    match cfg.copyFail p with
    | some reason =>
        { st1 with error_log := st1.error_log ++ [copyErrorText source_file dest_file reason] }
    | none => { st1 with fs := writeFile st1.fs p f.meta }
  { st2 with
      copied_files := st2.copied_files + 1,
      progress_events := st2.progress_events ++ [pyProgress (st2.copied_files + 1) total] }

/-- One iteration of the outer directory loop of run: create the missing
mirrored directory and record it as copied, or record the existing one
as modified; then process the files of the directory. -/
def dirStep (cfg : Config) (total : Nat) (st : RunSt) (e : DirEntry) : RunSt :=
  let dest_path := joinPath cfg.destination e.rel
  let st1 :=
    if pathExists st.fs e.rel then
      { st with modified_folders_list := st.modified_folders_list ++ [dest_path] }
    else
      { st with fs := makedirs st.fs e.rel,
                copied_folders_list := st.copied_folders_list ++ [dest_path] }
  e.files.foldl (fileStep cfg total e.rel) st1

def initSt (fs0 : DestFS) : RunSt :=
  { fs := fs0, copied_files_list := [], modified_files_list := [],
    copied_folders_list := [], modified_folders_list := [],
    error_log := [], copied_files := 0, progress_events := [] }

/-- The walk of run, shared verbatim by both source variants. -/
def runBody (cfg : Config) (fs0 : DestFS) : RunSt :=
  cfg.walk.foldl (dirStep cfg (total_files cfg.walk)) (initSt fs0)

/-- The result dictionary assembled at the end of run. -/
def mkResult (cfg : Config) (st : RunSt) : BackupResult :=
  { date := cfg.date,
    copied_files := st.copied_files_list.length,
    modified_files := st.modified_files_list.length,
    copied_folders := st.copied_folders_list.length,
    modified_folders := st.modified_folders_list.length,
    source := cfg.source,
    destination := cfg.destination,
    errors := st.error_log }

/-- BackupThread.run of src/BackupBanana.py: raise the fatal destination
error when the destination root does not exist, otherwise walk the
source and emit the terminal result. -/
def run (cfg : Config) (fs0 : DestFS) : RunOutput :=
  if pathExists fs0 [] then
    let st := runBody cfg fs0
    { outcome := Outcome.finished (mkResult cfg st),
      progress_events := st.progress_events,
      finalFS := st.fs }
  else
    { outcome := Outcome.fatal ["Destination directory is not reachable."],
      progress_events := [],
      finalFS := fs0 }

end BackupThread

namespace BackupThreadMac

/-- BackupThread.run of src/BackupBanana_MAC.py: identical walk, but the
method performs no destination existence check at all. -/
def run (cfg : Config) (fs0 : DestFS) : RunOutput :=
  let st := BackupThread.runBody cfg fs0
  { outcome := Outcome.finished (BackupThread.mkResult cfg st),
    progress_events := st.progress_events,
    finalFS := st.fs }

end BackupThreadMac

/-- Accumulator of the preview walk in BackupApp.get_changes: the two
display lists and the pending byte total. -/
structure DiffSt where
  new_files : List String
  modified_files : List String
  total_size : Nat
deriving DecidableEq

namespace BackupApp

/-- One iteration of the file loop of get_changes: a file absent at the
destination is listed as new and its size added; a file whose source
mtime is strictly greater is listed as modified and its size added; any
other file is left out. -/
def diffFileStep (cfg : Config) (fs : DestFS) (rel : FsPath) (st : DiffSt) (f : SrcFile) : DiffSt :=
  let p := rel ++ [f.name]
  let dest_file := joinPath cfg.destination p
  match lookupFile fs p with
  | none =>
      { st with new_files := st.new_files ++ [dest_file],
                total_size := st.total_size + f.meta.size }
  | some m =>
      if m.mtime < f.meta.mtime then
        { st with modified_files := st.modified_files ++ [dest_file],
                  total_size := st.total_size + f.meta.size }
      else st

/-- One iteration of the directory loop of get_changes: a missing
mirrored directory adds a new-folder line, then the files are examined.
The destination tree is only read, never written. -/
def diffDirStep (cfg : Config) (fs : DestFS) (st : DiffSt) (e : DirEntry) : DiffSt :=
  let dest_path := joinPath cfg.destination e.rel
  let st1 :=
    if pathExists fs e.rel then st
    else { st with new_files := st.new_files ++ ["New folder: " ++ dest_path] }
  e.files.foldl (diffFileStep cfg fs e.rel) st1

/-- BackupApp.get_changes, identical in both source variants: the
read-only preview diff of the source walk against the destination. -/
def get_changes (cfg : Config) (fs : DestFS) : List String × List String × Nat :=
  let st := cfg.walk.foldl (diffDirStep cfg fs) ⟨[], [], 0⟩
  (st.new_files, st.modified_files, st.total_size)

end BackupApp

/-- In-memory and on-disk history and log collections owned by
BackupApp: the two lists plus the persisted contents of history.json
and log.json. -/
structure AppStores where
  history : List BackupResult
  log : List BackupResult
  history_file : List BackupResult
  log_file : List BackupResult
deriving DecidableEq

namespace BackupApp

/-- BackupApp.record_history, identical in both variants: append the
result to history and persist it, and additionally append it to the log
and persist that exactly when the errors list is non-empty. -/
def record_history (st : AppStores) (r : BackupResult) : AppStores :=
  let st1 := { st with history := st.history ++ [r],
                       history_file := st.history ++ [r] }
  if r.errors.isEmpty then st1
  else { st1 with log := st1.log ++ [r], log_file := st1.log ++ [r] }

end BackupApp

/-- Schedule frequencies offered by the frequency combo box. -/
inductive Frequency where
  | once
  | daily
  | weekly
deriving DecidableEq

/-- A persisted schedule: frequency, the HH:MM time split into hour and
minute, and the weekday index, present exactly for weekly tasks
(0 = Monday, matching the order the schedule library uses). -/
structure Sched where
  frequency : Frequency
  hh : Nat
  mm : Nat
  day : Option Nat
deriving DecidableEq

/-- A persisted task: source, destination and schedule. -/
structure Task where
  source : String
  destination : String
  sched : Sched
deriving DecidableEq

/-- The tasks dictionary, keyed by task name. -/
abbrev Tasks := List (String × Task)

def lookupTask (ts : Tasks) (n : String) : Option Task :=
  (ts.find? (fun p => p.1 == n)).map (fun p => p.2)

/-- The job a call to schedule_task leaves registered with the shared
scheduler instance. -/
inductive JobSpec where
  | dailyAt (hh mm : Nat)
  | weeklyOn (d hh mm : Nat)
  | weeklyInterval (hh mm : Nat)
deriving DecidableEq

namespace BackupApp

/-- BackupApp.schedule_task of src/BackupBanana.py, given the resolved
task schedule. Once registers nothing. Daily calls every().day.at(t).
Weekly looks the weekday method up by name and calls
every().monday-or-similar.at(t), producing a job bound to that weekday.
A weekly schedule whose persisted day is null would raise inside the
lower() call, modelled as the error branch. -/
def schedule_task (s : Sched) : Except String (Option JobSpec) :=
  match s.frequency with
  | Frequency.once => Except.ok none
  | Frequency.daily => Except.ok (some (JobSpec.dailyAt s.hh s.mm))
  | Frequency.weekly =>
      match s.day with
      | some d => Except.ok (some (JobSpec.weeklyOn d s.hh s.mm))
      | none => Except.error "AttributeError"

/-- BackupApp.run_scheduled_backup of src/BackupBanana.py: resolve the
task with dict.get; a deleted task yields None, is printed, and the
dispatch returns without starting a backup; otherwise the stored source
and destination are handed to start_backup. -/
def run_scheduled_backup (ts : Tasks) (n : String) : Option (String × String) :=
  match lookupTask ts n with
  | none => none
  | some t => some (t.source, t.destination)

/-- One run_pending sweep of the scheduler loop over the due job names:
every dispatch returns normally, so the sweep is total and the loop
continues regardless of deleted tasks. -/
def run_pending (ts : Tasks) (due : List String) : List (String × String) :=
  due.filterMap (run_scheduled_backup ts)

end BackupApp

namespace BackupAppMac

/-- BackupApp.schedule_task of src/BackupBanana_MAC.py. The weekly
branch reads the configured day into an unused local and registers
every().week.at(t): the schedule library rejects at() on a plain weeks
job that has no start day, raising ScheduleValueError, so no weekly job
is ever registered by this variant. Modelled from the schedule library
dependency, whose at() raises for units other than days, hours and
minutes when no start day is set. -/
def schedule_task (s : Sched) : Except String (Option JobSpec) :=
  match s.frequency with
  | Frequency.once => Except.ok none
  | Frequency.daily => Except.ok (some (JobSpec.dailyAt s.hh s.mm))
  | Frequency.weekly => Except.error "ScheduleValueError"

/-- BackupApp.run_scheduled_backup of src/BackupBanana_MAC.py: the task
is resolved with a plain dictionary subscript, so a deleted task raises
KeyError, which nothing in the scheduler loop catches. -/
def run_scheduled_backup (ts : Tasks) (n : String) : Except String (String × String) :=
  match lookupTask ts n with
  | none => Except.error ("KeyError: " ++ n)
  | some t => Except.ok (t.source, t.destination)

end BackupAppMac

/-
Model of the weekly trigger of the schedule library, to which the
Windows variant delegates weekday firing. Time is a natural number of
seconds. A job registered for weekday d at HH:MM owns the weekly residue
r below; its next_run is always the earliest strictly future instant
with that residue, recomputed from the current time each time it fires,
which is how the library reschedules a start-day job. The scheduler
thread polls run_pending once per second; a poll fires the job exactly
when next_run has been reached.
-/

/-- Seconds in a week. -/
def weekSecs : Nat := 604800

/-- Seconds in a day. -/
def daySecs : Nat := 86400

/-- Second-of-week of the configured weekday-and-time trigger. -/
def weeklyResidue (d hh mm : Nat) : Nat :=
  d * 86400 + hh * 3600 + mm * 60

/-- Earliest instant strictly after n whose second-of-week is r. -/
def nextAfter (r n : Nat) : Nat :=
  if r ≤ n % weekSecs then n - n % weekSecs + weekSecs + r
  else n - n % weekSecs + r

/-- State of one registered weekly job: its trigger residue and the next
instant at which it is due. -/
structure WeeklyJob where
  residue : Nat
  next_run : Nat
deriving DecidableEq

/-- Registration of a weekly job at time t0 for weekday d at HH:MM. -/
def schedule_weekly (d hh mm t0 : Nat) : WeeklyJob :=
  { residue := weeklyResidue d hh mm,
    next_run := nextAfter (weeklyResidue d hh mm) t0 }

/-- The scheduler polls at the given tick times, in order. Each entry of
the output pairs a firing time with the boundary, the next_run value,
that made the job due at that poll. -/
def runTicks (j : WeeklyJob) : List Nat → List (Nat × Nat)
  | [] => []
  | t :: ts =>
      if j.next_run ≤ t then
        (t, j.next_run) :: runTicks { j with next_run := nextAfter j.residue t } ts
      else
        runTicks j ts

/-
Closed forms of the accumulators of the walk, used to state and prove
the claims. Each is a plain function of the inputs of the pass.
-/

/-- Error-log lines the file loop of one directory contributes: one
formatted line per file whose copy attempt raises. -/
def fileErrorsOfFiles (cfg : Config) (rel : FsPath) (files : List SrcFile) : List String :=
  files.filterMap (fun f =>
    (cfg.copyFail (rel ++ [f.name])).map (fun reason =>
      copyErrorText (joinPath cfg.source (rel ++ [f.name]))
        (joinPath cfg.destination (rel ++ [f.name])) reason))

/-- Error-log lines of the whole pass, in walk order. -/
def fileErrorsOf (cfg : Config) : List String :=
  (cfg.walk.map (fun e => fileErrorsOfFiles cfg e.rel e.files)).flatten

/-- The progress values emitted while the processed-file counter climbs
from start to start + n out of total. -/
def progressFrom (total start : Nat) : Nat → List Nat
  | 0 => []
  | n + 1 => pyProgress (start + 1) total :: progressFrom total (start + 1) n

namespace BackupThread

theorem fileStep_error_log (cfg : Config) (total : Nat) (rel : FsPath) (st : RunSt) (f : SrcFile) :
    (fileStep cfg total rel st f).error_log =
      st.error_log ++ fileErrorsOfFiles cfg rel [f] := by
  simp only [fileStep, fileErrorsOfFiles, List.filterMap]
  cases h1 : lookupFile st.fs (rel ++ [f.name]) with
  | none => cases h2 : cfg.copyFail (rel ++ [f.name]) <;> simp [h2]
  | some m =>
      by_cases hm : m.mtime < f.meta.mtime <;>
        cases h2 : cfg.copyFail (rel ++ [f.name]) <;> simp [h2, hm]

theorem fileStep_copied_count (cfg : Config) (total : Nat) (rel : FsPath) (st : RunSt) (f : SrcFile) :
    (fileStep cfg total rel st f).copied_files = st.copied_files + 1 := by
  simp only [fileStep]
  cases h1 : lookupFile st.fs (rel ++ [f.name]) with
  | none => cases h2 : cfg.copyFail (rel ++ [f.name]) <;> simp [h2]
  | some m =>
      by_cases hm : m.mtime < f.meta.mtime <;>
        cases h2 : cfg.copyFail (rel ++ [f.name]) <;> simp [h2, hm]

theorem fileStep_progress (cfg : Config) (total : Nat) (rel : FsPath) (st : RunSt) (f : SrcFile) :
    (fileStep cfg total rel st f).progress_events =
      st.progress_events ++ [pyProgress (st.copied_files + 1) total] := by
  simp only [fileStep]
  cases h1 : lookupFile st.fs (rel ++ [f.name]) with
  | none => cases h2 : cfg.copyFail (rel ++ [f.name]) <;> simp [h2]
  | some m =>
      by_cases hm : m.mtime < f.meta.mtime <;>
        cases h2 : cfg.copyFail (rel ++ [f.name]) <;> simp [h2, hm]

theorem fileStep_copied_folders (cfg : Config) (total : Nat) (rel : FsPath) (st : RunSt) (f : SrcFile) :
    (fileStep cfg total rel st f).copied_folders_list = st.copied_folders_list := by
  simp only [fileStep]
  cases h1 : lookupFile st.fs (rel ++ [f.name]) with
  | none => cases h2 : cfg.copyFail (rel ++ [f.name]) <;> simp [h2]
  | some m =>
      by_cases hm : m.mtime < f.meta.mtime <;>
        cases h2 : cfg.copyFail (rel ++ [f.name]) <;> simp [h2, hm]

theorem fileStep_modified_folders (cfg : Config) (total : Nat) (rel : FsPath) (st : RunSt) (f : SrcFile) :
    (fileStep cfg total rel st f).modified_folders_list = st.modified_folders_list := by
  simp only [fileStep]
  cases h1 : lookupFile st.fs (rel ++ [f.name]) with
  | none => cases h2 : cfg.copyFail (rel ++ [f.name]) <;> simp [h2]
  | some m =>
      by_cases hm : m.mtime < f.meta.mtime <;>
        cases h2 : cfg.copyFail (rel ++ [f.name]) <;> simp [h2, hm]

theorem fileStep_dirs (cfg : Config) (total : Nat) (rel : FsPath) (st : RunSt) (f : SrcFile) :
    (fileStep cfg total rel st f).fs.dirs = st.fs.dirs := by
  simp only [fileStep]
  cases h1 : lookupFile st.fs (rel ++ [f.name]) with
  | none => cases h2 : cfg.copyFail (rel ++ [f.name]) <;> simp [h2, writeFile]
  | some m =>
      by_cases hm : m.mtime < f.meta.mtime <;>
        cases h2 : cfg.copyFail (rel ++ [f.name]) <;> simp [h2, hm, writeFile]

theorem fileFold_error_log (cfg : Config) (total : Nat) (rel : FsPath) (files : List SrcFile) :
    ∀ st : RunSt, (files.foldl (fileStep cfg total rel) st).error_log =
      st.error_log ++ fileErrorsOfFiles cfg rel files := by
  induction files with
  | nil => intro st; simp [fileErrorsOfFiles]
  | cons f fs ih =>
      intro st
      rw [List.foldl_cons, ih, fileStep_error_log]
      simp only [fileErrorsOfFiles, List.filterMap_cons, List.append_assoc]
      cases cfg.copyFail (rel ++ [f.name]) <;> simp

theorem fileFold_copied_count (cfg : Config) (total : Nat) (rel : FsPath) (files : List SrcFile) :
    ∀ st : RunSt, (files.foldl (fileStep cfg total rel) st).copied_files =
      st.copied_files + files.length := by
  induction files with
  | nil => intro st; simp
  | cons f fs ih =>
      intro st
      rw [List.foldl_cons, ih, fileStep_copied_count]
      simp only [List.length_cons]
      omega

theorem fileFold_progress (cfg : Config) (total : Nat) (rel : FsPath) (files : List SrcFile) :
    ∀ st : RunSt, (files.foldl (fileStep cfg total rel) st).progress_events =
      st.progress_events ++ progressFrom total st.copied_files files.length := by
  induction files with
  | nil => intro st; simp [progressFrom]
  | cons f fs ih =>
      intro st
      rw [List.foldl_cons, ih, fileStep_progress, fileStep_copied_count]
      simp [progressFrom, List.append_assoc]

theorem fileFold_copied_folders (cfg : Config) (total : Nat) (rel : FsPath) (files : List SrcFile) :
    ∀ st : RunSt, (files.foldl (fileStep cfg total rel) st).copied_folders_list =
      st.copied_folders_list := by
  induction files with
  | nil => intro st; simp
  | cons f fs ih => intro st; rw [List.foldl_cons, ih, fileStep_copied_folders]

theorem fileFold_modified_folders (cfg : Config) (total : Nat) (rel : FsPath) (files : List SrcFile) :
    ∀ st : RunSt, (files.foldl (fileStep cfg total rel) st).modified_folders_list =
      st.modified_folders_list := by
  induction files with
  | nil => intro st; simp
  | cons f fs ih => intro st; rw [List.foldl_cons, ih, fileStep_modified_folders]

theorem fileFold_dirs (cfg : Config) (total : Nat) (rel : FsPath) (files : List SrcFile) :
    ∀ st : RunSt, (files.foldl (fileStep cfg total rel) st).fs.dirs = st.fs.dirs := by
  induction files with
  | nil => intro st; simp
  | cons f fs ih => intro st; rw [List.foldl_cons, ih, fileStep_dirs]

theorem dirStep_error_log (cfg : Config) (total : Nat) (st : RunSt) (e : DirEntry) :
    (dirStep cfg total st e).error_log = st.error_log ++ fileErrorsOfFiles cfg e.rel e.files := by
  simp only [dirStep]
  split <;> rw [fileFold_error_log]

theorem dirStep_copied_count (cfg : Config) (total : Nat) (st : RunSt) (e : DirEntry) :
    (dirStep cfg total st e).copied_files = st.copied_files + e.files.length := by
  simp only [dirStep]
  split <;> rw [fileFold_copied_count]

theorem dirStep_progress (cfg : Config) (total : Nat) (st : RunSt) (e : DirEntry) :
    (dirStep cfg total st e).progress_events =
      st.progress_events ++ progressFrom total st.copied_files e.files.length := by
  simp only [dirStep]
  split <;> rw [fileFold_progress]

theorem dirStep_folders_present (cfg : Config) (total : Nat) (st : RunSt) (e : DirEntry)
    (h : pathExists st.fs e.rel = true) :
    (dirStep cfg total st e).modified_folders_list =
        st.modified_folders_list ++ [joinPath cfg.destination e.rel] ∧
      (dirStep cfg total st e).copied_folders_list = st.copied_folders_list ∧
      (dirStep cfg total st e).fs.dirs = st.fs.dirs := by
  simp only [dirStep, h, if_true]
  exact ⟨by rw [fileFold_modified_folders], by rw [fileFold_copied_folders],
    by rw [fileFold_dirs]⟩

theorem dirStep_folders_absent (cfg : Config) (total : Nat) (st : RunSt) (e : DirEntry)
    (h : pathExists st.fs e.rel = false) :
    (dirStep cfg total st e).copied_folders_list =
        st.copied_folders_list ++ [joinPath cfg.destination e.rel] ∧
      (dirStep cfg total st e).modified_folders_list = st.modified_folders_list ∧
      (dirStep cfg total st e).fs.dirs = st.fs.dirs ++ [e.rel] := by
  simp only [dirStep, h, Bool.false_eq_true, if_false]
  exact ⟨by rw [fileFold_copied_folders], by rw [fileFold_modified_folders],
    by rw [fileFold_dirs]; rfl⟩

theorem dirStep_folder_count (cfg : Config) (total : Nat) (st : RunSt) (e : DirEntry) :
    (dirStep cfg total st e).copied_folders_list.length +
        (dirStep cfg total st e).modified_folders_list.length =
      st.copied_folders_list.length + st.modified_folders_list.length + 1 := by
  cases h : pathExists st.fs e.rel with
  | true =>
      obtain ⟨h1, h2, _⟩ := dirStep_folders_present cfg total st e h
      rw [h1, h2]
      simp
      omega
  | false =>
      obtain ⟨h1, h2, _⟩ := dirStep_folders_absent cfg total st e h
      rw [h1, h2]
      simp
      omega

end BackupThread

theorem progressFrom_add (total : Nat) : ∀ (a start b : Nat),
    progressFrom total start (a + b) =
      progressFrom total start a ++ progressFrom total (start + a) b := by
  intro a
  induction a with
  | zero => intro start b; simp [progressFrom]
  | succ n ih =>
      intro start b
      have h1 : n + 1 + b = (n + b) + 1 := by omega
      rw [h1]
      show pyProgress (start + 1) total :: progressFrom total (start + 1) (n + b) = _
      rw [ih (start + 1) b]
      have h2 : start + 1 + n = start + (n + 1) := by omega
      rw [h2]
      simp [progressFrom]

theorem progressFrom_length (total : Nat) : ∀ (n start : Nat),
    (progressFrom total start n).length = n := by
  intro n
  induction n with
  | zero => intro start; rfl
  | succ k ih => intro start; simp [progressFrom, ih]

theorem progressFrom_get? (total : Nat) : ∀ (n start i : Nat), i < n →
    (progressFrom total start n).get? i = some (pyProgress (start + i + 1) total) := by
  intro n
  induction n with
  | zero => intro start i h; omega
  | succ k ih =>
      intro start i h
      cases i with
      | zero => simp [progressFrom]
      | succ j =>
          rw [progressFrom]
          rw [List.get?_cons_succ]
          rw [ih (start + 1) j (by omega)]
          have h2 : start + 1 + j = start + (j + 1) := by omega
          rw [h2]

theorem progressFrom_chain (total : Nat) (ht : 0 < total) : ∀ (n start : Nat),
    List.Chain' (fun a b => a ≤ b) (progressFrom total start n) := by
  intro n
  induction n with
  | zero => intro start; exact List.chain'_nil
  | succ k ih =>
      intro start
      cases k with
      | zero => simp [progressFrom]
      | succ m =>
          rw [progressFrom, progressFrom, List.chain'_cons]
          constructor
          · exact pyProgress_mono (start + 1) (start + 2) total (by omega) ht (by omega)
          · exact ih (start + 1)

theorem progressFrom_getLast? (total : Nat) : ∀ (n start : Nat), n ≠ 0 →
    (progressFrom total start n).getLast? = some (pyProgress (start + n) total) := by
  intro n
  induction n with
  | zero => intro start h; omega
  | succ k ih =>
      intro start _
      cases k with
      | zero => simp [progressFrom]
      | succ m =>
          rw [progressFrom, progressFrom, List.getLast?_cons_cons]
          have h := ih (start + 1) (by omega)
          rw [progressFrom] at h
          rw [h]
          have h2 : start + 1 + (m + 1) = start + (m + 1 + 1) := by omega
          rw [h2]

namespace BackupThread

theorem walkFold_error_log (cfg : Config) (total : Nat) (w : List DirEntry) :
    ∀ st : RunSt, (w.foldl (dirStep cfg total) st).error_log =
      st.error_log ++ (w.map (fun e => fileErrorsOfFiles cfg e.rel e.files)).flatten := by
  induction w with
  | nil => intro st; simp
  | cons e w ih =>
      intro st
      rw [List.foldl_cons, ih, dirStep_error_log]
      simp

theorem walkFold_copied_count (cfg : Config) (total : Nat) (w : List DirEntry) :
    ∀ st : RunSt, (w.foldl (dirStep cfg total) st).copied_files =
      st.copied_files + total_files w := by
  induction w with
  | nil => intro st; simp [total_files]
  | cons e w ih =>
      intro st
      rw [List.foldl_cons, ih, dirStep_copied_count]
      simp [total_files]
      omega

theorem walkFold_progress (cfg : Config) (total : Nat) (w : List DirEntry) :
    ∀ st : RunSt, (w.foldl (dirStep cfg total) st).progress_events =
      st.progress_events ++ progressFrom total st.copied_files (total_files w) := by
  induction w with
  | nil => intro st; simp [total_files, progressFrom]
  | cons e w ih =>
      intro st
      rw [List.foldl_cons, ih, dirStep_progress, dirStep_copied_count]
      have h1 : total_files (e :: w) = e.files.length + total_files w := by
        simp [total_files]
      rw [h1, progressFrom_add]
      simp

theorem walkFold_folder_count (cfg : Config) (total : Nat) (w : List DirEntry) :
    ∀ st : RunSt, (w.foldl (dirStep cfg total) st).copied_folders_list.length +
        (w.foldl (dirStep cfg total) st).modified_folders_list.length =
      st.copied_folders_list.length + st.modified_folders_list.length + w.length := by
  induction w with
  | nil => intro st; simp
  | cons e w ih =>
      intro st
      rw [List.foldl_cons, ih]
      have h := dirStep_folder_count cfg total st e
      simp only [List.length_cons]
      omega

theorem runBody_error_log (cfg : Config) (fs0 : DestFS) :
    (runBody cfg fs0).error_log = fileErrorsOf cfg := by
  rw [runBody, walkFold_error_log]
  simp [initSt, fileErrorsOf]

theorem runBody_copied_count (cfg : Config) (fs0 : DestFS) :
    (runBody cfg fs0).copied_files = total_files cfg.walk := by
  rw [runBody, walkFold_copied_count]
  simp [initSt]

theorem runBody_progress (cfg : Config) (fs0 : DestFS) :
    (runBody cfg fs0).progress_events =
      progressFrom (total_files cfg.walk) 0 (total_files cfg.walk) := by
  rw [runBody, walkFold_progress]
  simp [initSt]

theorem runBody_folder_count (cfg : Config) (fs0 : DestFS) :
    (runBody cfg fs0).copied_folders_list.length +
        (runBody cfg fs0).modified_folders_list.length = cfg.walk.length := by
  rw [runBody]
  have h := walkFold_folder_count cfg (total_files cfg.walk) cfg.walk (initSt fs0)
  simpa [initSt] using h

end BackupThread

theorem nextAfter_mod (r n : Nat) (hr : r < weekSecs) :
    nextAfter r n % weekSecs = r := by
  simp only [nextAfter, weekSecs] at *
  split <;> omega

theorem nextAfter_gt (r n : Nat) (hr : r < weekSecs) : n < nextAfter r n := by
  simp only [nextAfter, weekSecs] at *
  split <;> omega

theorem residue_spacing (a b : Nat) (h : a % weekSecs = b % weekSecs) (hab : a < b) :
    a + weekSecs ≤ b := by
  simp only [weekSecs] at *
  omega

theorem chain_lt_head : ∀ (t : Nat) (ts : List Nat),
    List.Chain' (fun a b => a < b) (t :: ts) → ∀ x ∈ ts, t < x := by
  intro t ts
  induction ts generalizing t with
  | nil => intro _ x hx; simp at hx
  | cons s ts ih =>
      intro h x hx
      rw [List.chain'_cons] at h
      rcases List.mem_cons.mp hx with rfl | hx2
      · exact h.1
      · exact lt_trans h.1 (ih s h.2 x hx2)

/-- Soundness of the weekly trigger trace: provided the job state is
consistent, any fire happens at a poll tick, at or after its boundary,
the boundary has the configured weekly residue, lies strictly after the
previous observed instant, and successive fire boundaries are at least
one week apart. -/
theorem runTicks_spec (r : Nat) (hr : r < weekSecs) :
    ∀ (ts : List Nat) (j : WeeklyJob) (u : Nat),
      j.residue = r → j.next_run % weekSecs = r → u < j.next_run →
      List.Chain' (fun a b => a < b) (u :: ts) →
      (∀ p ∈ runTicks j ts,
          p.1 ∈ ts ∧ p.2 % weekSecs = r ∧ p.2 ≤ p.1 ∧ u < p.2 ∧ j.next_run ≤ p.2 ∧
          (∀ x ∈ ts, x < p.1 → x < p.2)) ∧
      List.Chain' (fun p q : Nat × Nat => p.2 + weekSecs ≤ q.2) (runTicks j ts) := by
  intro ts
  induction ts with
  | nil =>
      intro j u _ _ _ _
      exact ⟨by simp [runTicks], by simp [runTicks]⟩
  | cons t ts ih =>
      intro j u hres hmod hu hchain
      rw [List.chain'_cons] at hchain
      obtain ⟨hut, hchain2⟩ := hchain
      have hts_gt : ∀ x ∈ ts, t < x := chain_lt_head t ts hchain2
      by_cases hif : j.next_run ≤ t
      · -- the poll at t fires the job
        have hj2res : ({ j with next_run := nextAfter j.residue t } : WeeklyJob).residue = r :=
          hres
        have hj2mod : ({ j with next_run := nextAfter j.residue t } : WeeklyJob).next_run %
            weekSecs = r := by
          simp only [hres]
          exact nextAfter_mod r t hr
        have hj2gt : t < ({ j with next_run := nextAfter j.residue t } : WeeklyJob).next_run := by
          simp only [hres]
          exact nextAfter_gt r t hr
        obtain ⟨ihAll, ihChain⟩ :=
          ih { j with next_run := nextAfter j.residue t } t hj2res hj2mod hj2gt hchain2
        have hfire : runTicks j (t :: ts) =
            (t, j.next_run) :: runTicks { j with next_run := nextAfter j.residue t } ts := by
          simp [runTicks, hif]
        rw [hfire]
        constructor
        · intro p hp
          rcases List.mem_cons.mp hp with rfl | hp2
          · refine ⟨List.mem_cons_self _ _, hmod, hif, hu, le_refl _, ?_⟩
            intro x hx hxlt
            rcases List.mem_cons.mp hx with rfl | hx2
            · omega
            · exact absurd hxlt (not_lt.mpr (le_of_lt (hts_gt x hx2)))
          · obtain ⟨hp1, hp2m, hp2le, hp2u, hp2nr, hpall⟩ := ihAll p hp2
            refine ⟨List.mem_cons_of_mem _ hp1, hp2m, hp2le, lt_trans hut hp2u, ?_, ?_⟩
            · have h1 : j.next_run ≤ t := hif
              have h2 : t < nextAfter r t := nextAfter_gt r t hr
              simp only [hres] at hp2nr
              omega
            · intro x hx hxlt
              rcases List.mem_cons.mp hx with rfl | hx2
              · exact hp2u
              · exact hpall x hx2 hxlt
        · rw [List.chain'_cons']
          constructor
          · intro q hq
            have hqmem : q ∈ runTicks { j with next_run := nextAfter j.residue t } ts :=
              List.mem_of_mem_head? hq
            obtain ⟨_, hq2m, _, _, hq2nr, _⟩ := ihAll q hqmem
            simp only [hres] at hq2nr
            have hspace : j.next_run + weekSecs ≤ nextAfter r t := by
              apply residue_spacing
              · rw [hmod, nextAfter_mod r t hr]
              · exact lt_of_le_of_lt hif (nextAfter_gt r t hr)
            omega
          · exact ihChain
      · -- the poll at t leaves the job pending
        have hskip : runTicks j (t :: ts) = runTicks j ts := by
          simp [runTicks, hif]
        rw [hskip]
        obtain ⟨ihAll, ihChain⟩ := ih j t hres hmod (by omega) hchain2
        refine ⟨?_, ihChain⟩
        intro p hp
        obtain ⟨hp1, hp2m, hp2le, hp2u, hp2nr, hpall⟩ := ihAll p hp
        refine ⟨List.mem_cons_of_mem _ hp1, hp2m, hp2le, lt_trans hut hp2u, hp2nr, ?_⟩
        intro x hx hxlt
        rcases List.mem_cons.mp hx with rfl | hx2
        · exact hp2u
        · exact hpall x hx2 hxlt

theorem find_filtered_self (p : FsPath) (m : FileMeta) :
    ∀ l : List (FsPath × FileMeta),
      (l.filter (fun q => !(q.1 == p)) ++ [(p, m)]).find? (fun q => q.1 == p) = some (p, m) := by
  intro l
  induction l with
  | nil => simp [List.find?]
  | cons a l ih =>
      by_cases h : a.1 = p
      · simp only [List.filter_cons, h, beq_self_eq_true, Bool.not_true]
        simp only [if_false, Bool.false_eq_true]
        exact ih
      · have hb : (a.1 == p) = false := beq_eq_false_iff_ne.mpr h
        simp only [List.filter_cons, hb, Bool.not_false, if_true]
        rw [List.cons_append, List.find?_cons_of_neg _ (by simp [hb])]
        exact ih

/-- After a successful copy the destination holds exactly the metadata
of the source file. -/
theorem lookupFile_writeFile_self (fs : DestFS) (p : FsPath) (m : FileMeta) :
    lookupFile (writeFile fs p m) p = some m := by
  simp only [lookupFile, writeFile]
  rw [find_filtered_self p m fs.files]
  rfl

namespace BackupThread

/-- The copy of fileStep is unconditional: whenever the copy attempt
does not raise, the destination tree afterwards is exactly the tree with
that file written, whatever the classification decided. -/
theorem fileStep_fs_copy (cfg : Config) (total : Nat) (rel : FsPath) (st : RunSt) (f : SrcFile)
    (h : cfg.copyFail (rel ++ [f.name]) = none) :
    (fileStep cfg total rel st f).fs = writeFile st.fs (rel ++ [f.name]) f.meta := by
  simp only [fileStep, h]
  cases h1 : lookupFile st.fs (rel ++ [f.name]) with
  | none => simp [h]
  | some m => by_cases hm : m.mtime < f.meta.mtime <;> simp [h, hm]

/-- Classification of a file present at both ends during the execute
pass: it lands in the modified list exactly when the source mtime is
strictly greater, and otherwise both file lists are untouched. -/
theorem fileStep_modified_iff (cfg : Config) (total : Nat) (rel : FsPath) (st : RunSt)
    (f : SrcFile) (m : FileMeta) (h : lookupFile st.fs (rel ++ [f.name]) = some m) :
    ((fileStep cfg total rel st f).modified_files_list =
        st.modified_files_list ++ [joinPath cfg.destination (rel ++ [f.name])] ↔
      m.mtime < f.meta.mtime) ∧
    (¬ m.mtime < f.meta.mtime →
      (fileStep cfg total rel st f).modified_files_list = st.modified_files_list ∧
      (fileStep cfg total rel st f).copied_files_list = st.copied_files_list) := by
  constructor
  · constructor
    · intro heq
      by_contra hm
      simp only [fileStep, h] at heq
      rw [if_neg hm] at heq
      cases h2 : cfg.copyFail (rel ++ [f.name]) <;> simp [h2] at heq
    · intro hm
      simp only [fileStep, h]
      rw [if_pos hm]
      cases h2 : cfg.copyFail (rel ++ [f.name]) <;> simp [h2]
  · intro hm
    simp only [fileStep, h]
    rw [if_neg hm]
    cases h2 : cfg.copyFail (rel ++ [f.name]) <;> simp [h2]

end BackupThread

namespace BackupApp

/-- Classification of a file present at both ends during the preview
diff: it lands in the modified list exactly when the source mtime is
strictly greater, and otherwise the diff state is untouched. -/
theorem diffFileStep_modified_iff (cfg : Config) (fs : DestFS) (rel : FsPath) (st : DiffSt)
    (f : SrcFile) (m : FileMeta) (h : lookupFile fs (rel ++ [f.name]) = some m) :
    ((diffFileStep cfg fs rel st f).modified_files =
        st.modified_files ++ [joinPath cfg.destination (rel ++ [f.name])] ↔
      m.mtime < f.meta.mtime) ∧
    (¬ m.mtime < f.meta.mtime → diffFileStep cfg fs rel st f = st) := by
  constructor
  · constructor
    · intro heq
      by_contra hm
      simp only [diffFileStep, h] at heq
      rw [if_neg hm] at heq
      exact absurd (congrArg List.length heq) (by simp)
    · intro hm
      simp only [diffFileStep, h]
      rw [if_pos hm]
  · intro hm
    simp only [diffFileStep, h]
    rw [if_neg hm]

theorem diffFileFold_id (cfg : Config) (fs : DestFS) (rel : FsPath) (files : List SrcFile)
    (h : ∀ f ∈ files, ∃ m, lookupFile fs (rel ++ [f.name]) = some m ∧
      m.mtime = f.meta.mtime) :
    ∀ st : DiffSt, files.foldl (diffFileStep cfg fs rel) st = st := by
  induction files with
  | nil => intro st; simp
  | cons f fs2 ih =>
      intro st
      obtain ⟨m, hm, hmt⟩ := h f (List.mem_cons_self _ _)
      have hstep : diffFileStep cfg fs rel st f = st := by
        simp only [diffFileStep, hm]
        rw [if_neg (by rw [hmt]; exact lt_irrefl _)]
      rw [List.foldl_cons, hstep]
      exact ih (fun g hg => h g (List.mem_cons_of_mem _ hg)) st

end BackupApp

/-- The destination tree already mirrors the source walk: every visited
directory exists at the destination and every visited file exists there
with an equal modification time. -/
def synchronized (cfg : Config) (fs : DestFS) : Prop :=
  ∀ e ∈ cfg.walk, pathExists fs e.rel = true ∧
    ∀ f ∈ e.files, ∃ m, lookupFile fs (e.rel ++ [f.name]) = some m ∧
      m.mtime = f.meta.mtime

namespace BackupApp

theorem get_changes_synchronized (cfg : Config) (fs : DestFS) (h : synchronized cfg fs) :
    get_changes cfg fs = ([], [], 0) := by
  have hfold : ∀ w : List DirEntry, (∀ e ∈ w, pathExists fs e.rel = true ∧
      ∀ f ∈ e.files, ∃ m, lookupFile fs (e.rel ++ [f.name]) = some m ∧
        m.mtime = f.meta.mtime) →
      ∀ st : DiffSt, w.foldl (diffDirStep cfg fs) st = st := by
    intro w
    induction w with
    | nil => intro _ st; simp
    | cons e w2 ih =>
        intro hw st
        obtain ⟨hex, hfs⟩ := hw e (List.mem_cons_self _ _)
        have hstep : diffDirStep cfg fs st e = st := by
          simp only [diffDirStep, hex, if_true]
          exact diffFileFold_id cfg fs e.rel e.files hfs st
        rw [List.foldl_cons, hstep]
        exact ih (fun g hg => hw g (List.mem_cons_of_mem _ hg)) st
  unfold get_changes
  rw [hfold cfg.walk h ⟨[], [], 0⟩]

end BackupApp

/-
Concrete fixtures used by witness and counterexample theorems.
-/

def mA : FileMeta := ⟨0, 5, 3⟩

def srcA : SrcFile := ⟨"a", mA⟩

def srcB : SrcFile := ⟨"b", mA⟩

def w1cfg : Config :=
  { source := "s", destination := "d", date := "t",
    walk := [⟨[], [srcA, srcB]⟩],
    copyFail := fun p => if p = ["a"] then some "denied" else none }

def w1fs : DestFS := ⟨[[]], []⟩

def w2cfg : Config :=
  { source := "s", destination := "d", date := "t",
    walk := [⟨[], [srcA, srcB]⟩],
    copyFail := fun _ => none }

def cexEmptyWalkCfg : Config :=
  { source := "s", destination := "d", date := "t", walk := [],
    copyFail := fun _ => none }

def cexDestCfg : Config :=
  { source := "s", destination := "d", date := "t",
    walk := [⟨[], [srcA]⟩],
    copyFail := fun _ => none }

/-- C1: when copying one visited file of an execute pass fails, the
failure is caught and recorded as the single formatted error string for
that file inside the errors list of the terminal BackupResult, whose
errors are exactly the formatted lines of the failing files in walk
order; every file of the tree is still processed, witnessed by one
progress emission per file, and the pass ends with the backup_finished
result assembled from the classification lists, not a fatal error. -/
theorem C1_per_file_failure_isolated (cfg : Config) (fs0 : DestFS)
    (hdest : pathExists fs0 [] = true)
    (e : DirEntry) (he : e ∈ cfg.walk) (f : SrcFile) (hf : f ∈ e.files)
    (reason : String) (hfail : cfg.copyFail (e.rel ++ [f.name]) = some reason) :
    (BackupThread.run cfg fs0).outcome =
        Outcome.finished (BackupThread.mkResult cfg (BackupThread.runBody cfg fs0)) ∧
    (BackupThread.mkResult cfg (BackupThread.runBody cfg fs0)).errors = fileErrorsOf cfg ∧
    copyErrorText (joinPath cfg.source (e.rel ++ [f.name]))
        (joinPath cfg.destination (e.rel ++ [f.name])) reason ∈
      (BackupThread.mkResult cfg (BackupThread.runBody cfg fs0)).errors ∧
    (BackupThread.run cfg fs0).progress_events.length = total_files cfg.walk := by
  have herr : (BackupThread.mkResult cfg (BackupThread.runBody cfg fs0)).errors =
      fileErrorsOf cfg := by
    simp only [BackupThread.mkResult]
    exact BackupThread.runBody_error_log cfg fs0
  refine ⟨?_, herr, ?_, ?_⟩
  · simp [BackupThread.run, hdest]
  · rw [herr]
    simp only [fileErrorsOf, List.mem_flatten]
    refine ⟨fileErrorsOfFiles cfg e.rel e.files, List.mem_map_of_mem _ he, ?_⟩
    simp only [fileErrorsOfFiles, List.mem_filterMap]
    exact ⟨f, hf, by rw [hfail]; rfl⟩
  · have hp : (BackupThread.run cfg fs0).progress_events =
        progressFrom (total_files cfg.walk) 0 (total_files cfg.walk) := by
      simp only [BackupThread.run, hdest, if_true]
      exact BackupThread.runBody_progress cfg fs0
    rw [hp, progressFrom_length]

/-- C1 witness: a two-file tree in which the copy of the first file is
denied still finishes, logs exactly that one formatted line, and emits
one progress event per file. -/
theorem C1_witness :
    (BackupThread.run w1cfg w1fs).outcome =
        Outcome.finished (BackupThread.mkResult w1cfg (BackupThread.runBody w1cfg w1fs)) ∧
    (BackupThread.mkResult w1cfg (BackupThread.runBody w1cfg w1fs)).errors =
        fileErrorsOf w1cfg ∧
    copyErrorText (joinPath w1cfg.source ([] ++ [srcA.name]))
        (joinPath w1cfg.destination ([] ++ [srcA.name])) "denied" ∈
      (BackupThread.mkResult w1cfg (BackupThread.runBody w1cfg w1fs)).errors ∧
    (BackupThread.run w1cfg w1fs).progress_events.length = total_files w1cfg.walk :=
  C1_per_file_failure_isolated w1cfg w1fs (by decide) ⟨[], [srcA, srcB]⟩ (by decide)
    srcA (by decide) "denied" (by decide)

def cexFloatCfg : Config :=
  { source := "s", destination := "d", date := "t",
    walk := [⟨[], (List.range 50).map (fun i => ⟨Nat.repr i, mA⟩)⟩],
    copyFail := fun _ => some "x" }

set_option maxRecDepth 20000 in
/-- C2 counterexample: the progress expression is a binary64 float
computation, not an exact floor. In a tree of 50 files the 29th emitted
value is 57, because the double nearest 29 / 50 times 100 rounds to
57.99999999999999, while the exact floor of 29 / 50 * 100 is 58, so the
emitted values do not equal the claimed floor. -/
theorem C2_counterexample :
    total_files cexFloatCfg.walk = 50 ∧
    (BackupThread.run cexFloatCfg w1fs).progress_events.get? 28 = some 57 ∧
    (28 + 1) * 100 / total_files cexFloatCfg.walk = 58 := by
  refine ⟨by decide, by decide, by decide⟩

/-- C2 (amended): with a reachable destination, the execute pass over a
tree with N files emits exactly N progress events, one per processed
file whether its copy succeeded or failed; the i-th event is the
binary64 evaluation of int((i + 1) / N * 100), which can fall below the
exact floor; the sequence is monotonically non-decreasing, a zero-file
tree produces no events and no division, a non-empty tree ends at
exactly 100, and the pass always ends in a finished result. -/
theorem C2_progress_contract (cfg : Config) (fs0 : DestFS)
    (hdest : pathExists fs0 [] = true) :
    (BackupThread.run cfg fs0).outcome =
        Outcome.finished (BackupThread.mkResult cfg (BackupThread.runBody cfg fs0)) ∧
    (BackupThread.run cfg fs0).progress_events =
      progressFrom (total_files cfg.walk) 0 (total_files cfg.walk) ∧
    (BackupThread.run cfg fs0).progress_events.length = total_files cfg.walk ∧
    (∀ i, i < total_files cfg.walk →
      (BackupThread.run cfg fs0).progress_events.get? i =
        some (pyProgress (i + 1) (total_files cfg.walk))) ∧
    List.Chain' (fun a b => a ≤ b) (BackupThread.run cfg fs0).progress_events ∧
    (total_files cfg.walk = 0 → (BackupThread.run cfg fs0).progress_events = []) ∧
    (1 ≤ total_files cfg.walk →
      (BackupThread.run cfg fs0).progress_events.getLast? = some 100) := by
  have hp : (BackupThread.run cfg fs0).progress_events =
      progressFrom (total_files cfg.walk) 0 (total_files cfg.walk) := by
    simp only [BackupThread.run, hdest, if_true]
    exact BackupThread.runBody_progress cfg fs0
  refine ⟨by simp [BackupThread.run, hdest], hp, ?_, ?_, ?_, ?_, ?_⟩
  · rw [hp, progressFrom_length]
  · intro i hi
    rw [hp, progressFrom_get? _ _ _ _ hi]
    rw [Nat.zero_add]
  · rcases Nat.eq_zero_or_pos (total_files cfg.walk) with h0 | h0
    · rw [hp, h0]
      exact List.chain'_nil
    · rw [hp]
      exact progressFrom_chain _ h0 _ _
  · intro h0
    rw [hp, h0]
    rfl
  · intro h1
    rw [hp, progressFrom_getLast? _ _ _ (by omega), Nat.zero_add,
      pyProgress_self _ (by omega)]

/-- C2 witness: a reachable destination and a two-file tree give the
event sequence 50, 100. -/
theorem C2_witness :
    (BackupThread.run w2cfg w1fs).progress_events = [50, 100] ∧
    ((BackupThread.run w2cfg w1fs).outcome =
        Outcome.finished (BackupThread.mkResult w2cfg (BackupThread.runBody w2cfg w1fs)) ∧
    (BackupThread.run w2cfg w1fs).progress_events =
      progressFrom (total_files w2cfg.walk) 0 (total_files w2cfg.walk) ∧
    (BackupThread.run w2cfg w1fs).progress_events.length = total_files w2cfg.walk ∧
    (∀ i, i < total_files w2cfg.walk →
      (BackupThread.run w2cfg w1fs).progress_events.get? i =
        some (pyProgress (i + 1) (total_files w2cfg.walk))) ∧
    List.Chain' (fun a b => a ≤ b) (BackupThread.run w2cfg w1fs).progress_events ∧
    (total_files w2cfg.walk = 0 → (BackupThread.run w2cfg w1fs).progress_events = []) ∧
    (1 ≤ total_files w2cfg.walk →
      (BackupThread.run w2cfg w1fs).progress_events.getLast? = some 100)) :=
  ⟨by decide, C2_progress_contract w2cfg w1fs (by decide)⟩

/-- C3 counterexample: the MAC variant of BackupThread.run performs no
destination check at all; started with a completely empty destination
filesystem it does not fail, creates the destination root during the
walk, copies the file, emits progress, and produces a BackupResult. -/
theorem C3_counterexample :
    (BackupThreadMac.run cexDestCfg ⟨[], []⟩).outcome =
        Outcome.finished
          { date := "t", copied_files := 1, modified_files := 0, copied_folders := 1,
            modified_folders := 0, source := "s", destination := "d", errors := [] } ∧
    (BackupThreadMac.run cexDestCfg ⟨[], []⟩).finalFS.dirs = [[]] ∧
    (BackupThreadMac.run cexDestCfg ⟨[], []⟩).progress_events = [100] := by
  refine ⟨?_, ?_, ?_⟩ <;> decide

/-- C3 amended: only the Windows variant guards the destination root.
There, a missing destination root makes the pass fail immediately with
the fatal DestinationUnreachable error, before any copy or directory
creation: the destination state is returned unchanged, no progress is
emitted, and no BackupResult is produced. The MAC variant has no such
check and always completes with a BackupResult. -/
theorem C3_destination_check (cfg : Config) (fs0 : DestFS)
    (h : pathExists fs0 [] = false) :
    BackupThread.run cfg fs0 =
      { outcome := Outcome.fatal ["Destination directory is not reachable."],
        progress_events := [], finalFS := fs0 } ∧
    (BackupThreadMac.run cfg fs0).outcome =
      Outcome.finished (BackupThread.mkResult cfg (BackupThread.runBody cfg fs0)) := by
  constructor
  · simp [BackupThread.run, h]
  · rfl

/-- C3 witness: with an empty destination filesystem the Windows pass
aborts fatally and untouched while the MAC pass completes. -/
theorem C3_witness :
    BackupThread.run cexDestCfg ⟨[], []⟩ =
      { outcome := Outcome.fatal ["Destination directory is not reachable."],
        progress_events := [], finalFS := ⟨[], []⟩ } ∧
    (BackupThreadMac.run cexDestCfg ⟨[], []⟩).outcome =
      Outcome.finished (BackupThread.mkResult cexDestCfg
        (BackupThread.runBody cexDestCfg ⟨[], []⟩)) :=
  C3_destination_check cexDestCfg ⟨[], []⟩ (by decide)

/-- C4: for a file present at both ends, both the execute pass and the
preview diff classify it as modified exactly when the source mtime is
strictly greater than the destination mtime; and a diff over an already
synchronized tree, where every mirrored entry exists with equal mtimes,
reports no new entries, no modified entries and zero pending bytes. -/
theorem C4_strictly_newer_wins :
    (∀ (cfg : Config) (total : Nat) (rel : FsPath) (st : RunSt) (f : SrcFile) (m : FileMeta),
      lookupFile st.fs (rel ++ [f.name]) = some m →
      (((BackupThread.fileStep cfg total rel st f).modified_files_list =
          st.modified_files_list ++ [joinPath cfg.destination (rel ++ [f.name])]) ↔
        m.mtime < f.meta.mtime)) ∧
    (∀ (cfg : Config) (fs : DestFS) (rel : FsPath) (st : DiffSt) (f : SrcFile) (m : FileMeta),
      lookupFile fs (rel ++ [f.name]) = some m →
      (((BackupApp.diffFileStep cfg fs rel st f).modified_files =
          st.modified_files ++ [joinPath cfg.destination (rel ++ [f.name])]) ↔
        m.mtime < f.meta.mtime)) ∧
    (∀ (cfg : Config) (fs : DestFS), synchronized cfg fs →
      BackupApp.get_changes cfg fs = ([], [], 0)) := by
  refine ⟨?_, ?_, ?_⟩
  · intro cfg total rel st f m h
    exact (BackupThread.fileStep_modified_iff cfg total rel st f m h).1
  · intro cfg fs rel st f m h
    exact (BackupApp.diffFileStep_modified_iff cfg fs rel st f m h).1
  · intro cfg fs h
    exact BackupApp.get_changes_synchronized cfg fs h

/-- C5: a visited file whose copy attempt does not raise is always
physically copied, whatever its classification was: the destination
tree afterwards is exactly the previous tree with the source metadata,
content and mtime included, written at the mirrored path. -/
theorem C5_copy_always_executes (cfg : Config) (total : Nat) (rel : FsPath) (st : RunSt)
    (f : SrcFile) (h : cfg.copyFail (rel ++ [f.name]) = none) :
    (BackupThread.fileStep cfg total rel st f).fs =
        writeFile st.fs (rel ++ [f.name]) f.meta ∧
    lookupFile (BackupThread.fileStep cfg total rel st f).fs (rel ++ [f.name]) =
        some f.meta := by
  have h1 := BackupThread.fileStep_fs_copy cfg total rel st f h
  exact ⟨h1, by rw [h1]; exact lookupFile_writeFile_self st.fs (rel ++ [f.name]) f.meta⟩

def mOld : FileMeta := ⟨0, 4, 3⟩

def fs4 : DestFS := ⟨[[]], [(["a"], mOld)]⟩

def st4 : RunSt :=
  { fs := fs4, copied_files_list := [], modified_files_list := [],
    copied_folders_list := [], modified_folders_list := [],
    error_log := [], copied_files := 0, progress_events := [] }

def dSt0 : DiffSt := ⟨[], [], 0⟩

def syncFs : DestFS := ⟨[[]], [(["a"], mA)]⟩

def syncCfg : Config :=
  { source := "s", destination := "d", date := "t",
    walk := [⟨[], [srcA]⟩], copyFail := fun _ => none }

def stEq : RunSt :=
  { fs := syncFs, copied_files_list := [], modified_files_list := [],
    copied_folders_list := [], modified_folders_list := [],
    error_log := [], copied_files := 0, progress_events := [] }

/-- C4 witness: a destination file one second older than its source is
classified modified by both passes, and the diff of a tree already in
sync is empty. -/
theorem C4_witness :
    (((BackupThread.fileStep w2cfg 2 [] st4 srcA).modified_files_list =
        st4.modified_files_list ++ [joinPath w2cfg.destination ([] ++ [srcA.name])]) ↔
      mOld.mtime < srcA.meta.mtime) ∧
    (((BackupApp.diffFileStep w2cfg fs4 [] dSt0 srcA).modified_files =
        dSt0.modified_files ++ [joinPath w2cfg.destination ([] ++ [srcA.name])]) ↔
      mOld.mtime < srcA.meta.mtime) ∧
    BackupApp.get_changes syncCfg syncFs = ([], [], 0) :=
  ⟨C4_strictly_newer_wins.1 w2cfg 2 [] st4 srcA mOld (by decide),
   C4_strictly_newer_wins.2.1 w2cfg fs4 [] dSt0 srcA mOld (by decide),
   C4_strictly_newer_wins.2.2 syncCfg syncFs (by
     intro e he
     have he2 : e = ⟨[], [srcA]⟩ := by simpa [syncCfg] using he
     subst he2
     refine ⟨by decide, ?_⟩
     intro f hf
     have hf2 : f = srcA := by simpa using hf
     subst hf2
     exact ⟨mA, by decide, by decide⟩)⟩

/-- C5 witness: a file whose source and destination mtimes are equal is
classified neither new nor modified, yet its copy still executes and
leaves the source metadata at the destination path. -/
theorem C5_witness :
    (BackupThread.fileStep w2cfg 2 [] stEq srcA).fs =
        writeFile stEq.fs ([] ++ [srcA.name]) srcA.meta ∧
    lookupFile (BackupThread.fileStep w2cfg 2 [] stEq srcA).fs ([] ++ [srcA.name]) =
        some srcA.meta :=
  C5_copy_always_executes w2cfg 2 [] stEq srcA (by decide)

/-- C6: a weekly task saved or loaded in the Windows variant registers
the weekday-bound job for day d at HH:MM, and that job fires only at
poll instants that have crossed a d-at-HH:MM weekly boundary after
registration: each fire carries a boundary with the exact configured
weekly residue, hence on weekday d, lying after every earlier poll, and
successive fire boundaries are at least one full week apart, so the job
fires at most once per weekly boundary. The MAC variant instead calls
at() on a plain week-interval job, which the scheduling library
rejects, so it never registers a weekly job at all. -/
theorem C6_weekly_schedule (d hh mm t0 : Nat) (hd : d < 7) (hh24 : hh < 24) (hmm : mm < 60)
    (ts : List Nat) (hts : List.Chain' (fun a b => a < b) (t0 :: ts)) :
    BackupApp.schedule_task ⟨Frequency.weekly, hh, mm, some d⟩ =
        Except.ok (some (JobSpec.weeklyOn d hh mm)) ∧
    (∀ p ∈ runTicks (schedule_weekly d hh mm t0) ts,
        p.1 ∈ ts ∧
        p.2 % weekSecs = weeklyResidue d hh mm ∧
        p.2 % weekSecs / daySecs = d ∧
        p.2 ≤ p.1 ∧ t0 < p.2 ∧
        (∀ x ∈ ts, x < p.1 → x < p.2)) ∧
    List.Chain' (fun p q : Nat × Nat => p.2 + weekSecs ≤ q.2)
        (runTicks (schedule_weekly d hh mm t0) ts) ∧
    BackupAppMac.schedule_task ⟨Frequency.weekly, hh, mm, some d⟩ =
        Except.error "ScheduleValueError" := by
  have hr : weeklyResidue d hh mm < weekSecs := by
    simp only [weeklyResidue, weekSecs]
    omega
  have h1 : (schedule_weekly d hh mm t0).residue = weeklyResidue d hh mm := rfl
  have h2 : (schedule_weekly d hh mm t0).next_run % weekSecs = weeklyResidue d hh mm :=
    nextAfter_mod _ t0 hr
  have h3 : t0 < (schedule_weekly d hh mm t0).next_run := nextAfter_gt _ t0 hr
  obtain ⟨hall, hchain⟩ :=
    runTicks_spec (weeklyResidue d hh mm) hr ts (schedule_weekly d hh mm t0) t0 h1 h2 h3 hts
  refine ⟨rfl, ?_, hchain, rfl⟩
  intro p hp
  obtain ⟨ha, hb, hle, hu, _, hx⟩ := hall p hp
  refine ⟨ha, hb, ?_, hle, hu, hx⟩
  rw [hb]
  simp only [weeklyResidue, daySecs]
  omega

/-- C6 witness: a Monday 09:00 job registered at time zero, polled just
after 09:00 Monday, one second later, and again late the following
week, fires exactly twice, once per crossed weekly boundary. -/
theorem C6_witness :
    runTicks (schedule_weekly 0 9 0 0) [32400, 32401, 700000] =
        [(32400, 32400), (700000, 637200)] ∧
    (BackupApp.schedule_task ⟨Frequency.weekly, 9, 0, some 0⟩ =
        Except.ok (some (JobSpec.weeklyOn 0 9 0)) ∧
    (∀ p ∈ runTicks (schedule_weekly 0 9 0 0) [32400, 32401, 700000],
        p.1 ∈ [32400, 32401, 700000] ∧
        p.2 % weekSecs = weeklyResidue 0 9 0 ∧
        p.2 % weekSecs / daySecs = 0 ∧
        p.2 ≤ p.1 ∧ 0 < p.2 ∧
        (∀ x ∈ [32400, 32401, 700000], x < p.1 → x < p.2)) ∧
    List.Chain' (fun p q : Nat × Nat => p.2 + weekSecs ≤ q.2)
        (runTicks (schedule_weekly 0 9 0 0) [32400, 32401, 700000]) ∧
    BackupAppMac.schedule_task ⟨Frequency.weekly, 9, 0, some 0⟩ =
        Except.error "ScheduleValueError") :=
  ⟨by decide,
   C6_weekly_schedule 0 9 0 0 (by decide) (by decide) (by decide)
     [32400, 32401, 700000]
     (by simp only [List.chain'_cons, List.chain'_singleton, and_true]; omega)⟩

def cexMissingSrcCfg : Config :=
  { source := "gone", destination := "d", date := "t", walk := [],
    copyFail := fun _ => none }

/-- C7 counterexample: get_changes has no failure channel; over a source
root that does not exist, whose os.walk enumeration is therefore empty,
the diff does not fail with a SourceUnreachable error but succeeds with
the ordinary empty result. -/
theorem C7_counterexample :
    BackupApp.get_changes cexMissingSrcCfg ⟨[[]], []⟩ = ([], [], 0) := rfl

/-- C7 amended: a diff pass whose source root does not exist or is
unreadable sees the empty walk, because os.walk swallows the error, and
silently succeeds with no new entries, no modified entries and zero
pending bytes instead of failing with a SourceUnreachable error;
unreadable entries below a readable root are likewise silently absent
from the walk; the diff only reads the destination tree and returns no
filesystem state at all. -/
theorem C7_missing_source_yields_empty (cfg : Config) (fs : DestFS) (h : cfg.walk = []) :
    BackupApp.get_changes cfg fs = ([], [], 0) := by
  simp [BackupApp.get_changes, h]

/-- C7 witness: the empty-walk configuration diffs to the empty result. -/
theorem C7_witness : BackupApp.get_changes cexEmptyWalkCfg ⟨[[]], []⟩ = ([], [], 0) :=
  C7_missing_source_yields_empty cexEmptyWalkCfg ⟨[[]], []⟩ rfl

/-- C8: recording a terminal BackupResult appends it to History and
persists History; it is additionally appended to the Log, and the Log
persisted, exactly when its errors list is non-empty; consequently,
whenever the Log was the errors-restricted subsequence of History
before the run, it still is afterwards, in memory and on disk. -/
theorem C8_history_log_invariant (st : AppStores) (r : BackupResult)
    (hinv : st.log = st.history.filter (fun x => !x.errors.isEmpty))
    (hlf : st.log_file = st.log) :
    (BackupApp.record_history st r).history = st.history ++ [r] ∧
    (BackupApp.record_history st r).history_file = (BackupApp.record_history st r).history ∧
    (BackupApp.record_history st r).log =
      (BackupApp.record_history st r).history.filter (fun x => !x.errors.isEmpty) ∧
    (BackupApp.record_history st r).log_file = (BackupApp.record_history st r).log ∧
    ((BackupApp.record_history st r).log = st.log ++ [r] ↔ r.errors ≠ []) := by
  cases hr : r.errors.isEmpty with
  | true =>
      have hnil : r.errors = [] := by simpa using hr
      have hred : BackupApp.record_history st r =
          { history := st.history ++ [r], log := st.log,
            history_file := st.history ++ [r], log_file := st.log_file } := by
        simp [BackupApp.record_history, hr]
      rw [hred]
      refine ⟨rfl, rfl, ?_, hlf, ?_⟩
      · rw [List.filter_append, ← hinv]
        simp [hr]
      · simp [hnil]
  | false =>
      have hne : r.errors ≠ [] := by
        intro hc
        rw [hc] at hr
        simp at hr
      have hred : BackupApp.record_history st r =
          { history := st.history ++ [r], log := st.log ++ [r],
            history_file := st.history ++ [r], log_file := st.log ++ [r] } := by
        simp [BackupApp.record_history, hr]
      rw [hred]
      refine ⟨rfl, rfl, ?_, rfl, ?_⟩
      · rw [List.filter_append, ← hinv]
        simp [hr]
      · simp [hne]

def rErr : BackupResult :=
  { date := "t", copied_files := 1, modified_files := 0, copied_folders := 0,
    modified_folders := 1, source := "s", destination := "d", errors := ["boom"] }

/-- C8 witness: recording an errored result from the empty stores lands
it in History and in Log, both persisted. -/
theorem C8_witness :
    (BackupApp.record_history ⟨[], [], [], []⟩ rErr).history = [] ++ [rErr] ∧
    (BackupApp.record_history ⟨[], [], [], []⟩ rErr).history_file =
      (BackupApp.record_history ⟨[], [], [], []⟩ rErr).history ∧
    (BackupApp.record_history ⟨[], [], [], []⟩ rErr).log =
      (BackupApp.record_history ⟨[], [], [], []⟩ rErr).history.filter
        (fun x => !x.errors.isEmpty) ∧
    (BackupApp.record_history ⟨[], [], [], []⟩ rErr).log_file =
      (BackupApp.record_history ⟨[], [], [], []⟩ rErr).log ∧
    ((BackupApp.record_history ⟨[], [], [], []⟩ rErr).log = [] ++ [rErr] ↔
      rErr.errors ≠ []) :=
  C8_history_log_invariant ⟨[], [], [], []⟩ rErr rfl rfl

/-- C9 counterexample: in the MAC variant a scheduled dispatch of a
deleted task is not a logged no-op: the bare dictionary subscript
raises KeyError, which nothing in the scheduler loop catches. -/
theorem C9_counterexample :
    BackupAppMac.run_scheduled_backup [] "nightly" = Except.error "KeyError: nightly" := rfl

/-- C9 amended: in the Windows variant a scheduled job firing after its
task was deleted resolves the task with dict.get, finds nothing, prints
and returns: no backup starts, and a run_pending sweep simply skips the
name while processing the remaining due jobs, so the loop survives. In
the MAC variant the same dispatch raises KeyError out of the uncaught
dictionary subscript, killing the scheduler loop. -/
theorem C9_deleted_task_dispatch (ts : Tasks) (n : String) (due : List String)
    (h : lookupTask ts n = none) :
    BackupApp.run_scheduled_backup ts n = none ∧
    BackupApp.run_pending ts (n :: due) = BackupApp.run_pending ts due ∧
    BackupAppMac.run_scheduled_backup ts n = Except.error ("KeyError: " ++ n) := by
  refine ⟨?_, ?_, ?_⟩
  · simp [BackupApp.run_scheduled_backup, h]
  · simp [BackupApp.run_pending, List.filterMap_cons, BackupApp.run_scheduled_backup, h]
  · simp [BackupAppMac.run_scheduled_backup, h]

def tkA : Task := ⟨"s", "d", ⟨Frequency.daily, 9, 0, none⟩⟩

/-- C9 witness: dispatching the deleted name nightly beside a surviving
task other is a no-op on Windows and a KeyError on MAC. -/
theorem C9_witness :
    BackupApp.run_scheduled_backup [("other", tkA)] "nightly" = none ∧
    BackupApp.run_pending [("other", tkA)] ("nightly" :: ["other"]) =
      BackupApp.run_pending [("other", tkA)] ["other"] ∧
    BackupAppMac.run_scheduled_backup [("other", tkA)] "nightly" =
      Except.error ("KeyError: " ++ "nightly") :=
  C9_deleted_task_dispatch [("other", tkA)] "nightly" ["other"] (by decide)

/-- C10 counterexample: with an existing destination root but a source
root that does not exist, os.walk enumerates nothing and the pass still
completes with a BackupResult whose folder counters are both zero. -/
theorem C10_counterexample :
    (BackupThread.run cexEmptyWalkCfg ⟨[[]], []⟩).outcome =
      Outcome.finished
        { date := "t", copied_files := 0, modified_files := 0, copied_folders := 0,
          modified_folders := 0, source := "s", destination := "d", errors := [] } := by
  decide

/-- C10 amended: every directory the walk visits is counted exactly
once, as a copied folder when its destination mirror was absent, in
which case it is also created, or as a modified folder when the mirror
was already present; the two folder counters of a finished result sum
to the number of visited directories, so whenever the walk is
non-empty, in particular whenever the source root exists, the counters
are not both zero. When the source root does not exist the walk is
empty and a completed pass reports both folder counters zero. -/
theorem C10_folder_accounting (cfg : Config) (fs0 : DestFS) :
    (∀ (total : Nat) (st : RunSt) (e : DirEntry),
      (pathExists st.fs e.rel = true →
        (BackupThread.dirStep cfg total st e).modified_folders_list =
          st.modified_folders_list ++ [joinPath cfg.destination e.rel] ∧
        (BackupThread.dirStep cfg total st e).copied_folders_list =
          st.copied_folders_list) ∧
      (pathExists st.fs e.rel = false →
        (BackupThread.dirStep cfg total st e).copied_folders_list =
          st.copied_folders_list ++ [joinPath cfg.destination e.rel] ∧
        (BackupThread.dirStep cfg total st e).modified_folders_list =
          st.modified_folders_list ∧
        (BackupThread.dirStep cfg total st e).fs.dirs = st.fs.dirs ++ [e.rel])) ∧
    (BackupThread.mkResult cfg (BackupThread.runBody cfg fs0)).copied_folders +
      (BackupThread.mkResult cfg (BackupThread.runBody cfg fs0)).modified_folders =
      cfg.walk.length ∧
    (cfg.walk ≠ [] →
      ¬((BackupThread.mkResult cfg (BackupThread.runBody cfg fs0)).copied_folders = 0 ∧
        (BackupThread.mkResult cfg (BackupThread.runBody cfg fs0)).modified_folders = 0)) := by
  have hsum : (BackupThread.mkResult cfg (BackupThread.runBody cfg fs0)).copied_folders +
      (BackupThread.mkResult cfg (BackupThread.runBody cfg fs0)).modified_folders =
      cfg.walk.length := by
    simp only [BackupThread.mkResult]
    exact BackupThread.runBody_folder_count cfg fs0
  refine ⟨?_, hsum, ?_⟩
  · intro total st e
    constructor
    · intro h
      obtain ⟨h1, h2, _⟩ := BackupThread.dirStep_folders_present cfg total st e h
      exact ⟨h1, h2⟩
    · intro h
      exact BackupThread.dirStep_folders_absent cfg total st e h
  · intro hne hc
    have : cfg.walk.length ≠ 0 := by
      intro h0
      exact hne (List.length_eq_zero.mp h0)
    omega

/-- C10 witness: a one-directory walk against an existing destination
root counts one modified folder, and the per-visit classification holds
at that first directory. -/
theorem C10_witness :
    (BackupThread.mkResult w2cfg (BackupThread.runBody w2cfg w1fs)).copied_folders +
      (BackupThread.mkResult w2cfg (BackupThread.runBody w2cfg w1fs)).modified_folders =
      w2cfg.walk.length ∧
    ¬((BackupThread.mkResult w2cfg (BackupThread.runBody w2cfg w1fs)).copied_folders = 0 ∧
      (BackupThread.mkResult w2cfg (BackupThread.runBody w2cfg w1fs)).modified_folders = 0) ∧
    (BackupThread.dirStep w2cfg 2 (BackupThread.initSt w1fs)
        ⟨[], [srcA, srcB]⟩).modified_folders_list =
      (BackupThread.initSt w1fs).modified_folders_list ++ [joinPath w2cfg.destination []] :=
  ⟨(C10_folder_accounting w2cfg w1fs).2.1,
   (C10_folder_accounting w2cfg w1fs).2.2 (by decide),
   (((C10_folder_accounting w2cfg w1fs).1 2 (BackupThread.initSt w1fs)
       ⟨[], [srcA, srcB]⟩).1 (by decide)).1⟩

end BackupBanana
